import Mathlib

/-!
# cpperlin: a shallow embedding of `src/main.cpp`

The program builds a lattice of pseudo-random unit vectors (`grid_2d::grid_2d`),
samples 2D gradient noise on it (`grid_2d::get_coord_val`, `grid_2d::interp`),
remaps the noise to a greyscale intensity (`grid_2d::to_greyscale`) and collects
the pixels of a `width × width` image (`grid_2d::get_img_vec`).

Every `double` of the program is modelled by an element of a linearly ordered
field `α` with a floor function (exact arithmetic): `α = ℚ` runs the model,
`α = ℝ` is exact real arithmetic.  Operations of the C++ standard library whose
code is not part of the repository (the Mersenne twister, the uniform
distribution, `sqrt`, `atoi`) are the fields of the structure `stdlib`.
Undefined behaviour of the C++ program (indexing a vector out of range, converting
an out-of-range `double` to `unsigned char`) and an exhausted iteration budget are
the value `none`.

The second part of the model (`round_double`, `interp_double`, `get_coord_val_double`,
`get_img_vec_double`, ...) computes in `double` itself: a finite `double` is the rational
number it stands for and every operation rounds its exact result to the nearest `double`.
It tells which properties of the exact model are properties of the program as it runs.
-/

/-- The type `channel` of the program: an `unsigned char`, an integer in `0..255`. -/
abbrev channel : Type := Nat

/-- The struct `vec_2d`: two coordinates, both `0` when default-constructed. -/
structure vec_2d (α : Type) where
  v1 : α
  v2 : α
deriving DecidableEq, Repr

/-- The struct `grid_2d`'s data members: `grid_side` and the lattice `grid` (a vector of rows). -/
structure grid_2d (α : Type) where
  grid_side : α
  grid : List (List (vec_2d α))

/-- The parts of the C++ standard library used by the constructor of `grid_2d`:
`mt19937 seed` is the generator state after seeding, `mt s` is one call of the
generator (a 32-bit word and the next state), `dist s` is one draw of
`uniform_real_distribution<double> (-1.0, 1.0)` from the generator, `sqrt` is
`std::sqrt` and `atoi` is `std::atoi`. -/
structure stdlib (α σ : Type) where
  mt19937 : Nat → σ
  mt : σ → Nat × σ
  dist : σ → α × σ
  sqrt : α → α
  atoi : String → Int

section model

variable {α : Type} [LinearOrderedField α]

set_option linter.dupNamespace false

/-- The default constructor `vec_2d ()`: both members are value-initialised to `0`. -/
def vec_2d.zero : vec_2d α := ⟨0, 0⟩

/-- The member `operator *` of `vec_2d`: the dot product. -/
def vec_2d.dot (a b : vec_2d α) : α := a.v1 * b.v1 + a.v2 * b.v2

namespace grid_2d

/-- The constant `GRID_SCALE = 16.0`. -/
def GRID_SCALE : α := 16

/-- The constant `POINT_INTERVAL = nextafter (1 / GRID_SCALE, 0)`: the greatest double below
`1/16 = 2^-4`, which is `2^-4 - 2^-57`. -/
def POINT_INTERVAL : α := 1 / GRID_SCALE - 1 / 2 ^ 57

/-- The constant `BEFORE_128 = nextafter (128.0, 127)`: the greatest double below `128 = 2^7`,
which is `2^7 - 2^-46`. -/
def BEFORE_128 : α := 128 - 1 / 2 ^ 46

/-- The member `interp` over exact arithmetic: the smootherstep blend of `start` and `end`.
(The same expression with every operation rounded to `double` is `interp_double`.) -/
def interp (start «end» t : α) : α :=
  start + t * t * t * (3 * t * (2 * t - 5) + 10) * («end» - start)

/-- The member `to_greyscale`. -/
def to_greyscale (d : α) : α := (d + 1) * BEFORE_128

/-- The lookup `grid[i][j]`, total: `none` when an index is out of range. -/
def index (g : grid_2d α) (i j : Int) : Option (vec_2d α) :=
  if 0 ≤ i ∧ 0 ≤ j then (g.grid.get? i.toNat).bind (fun row => row.get? j.toNat) else none

/-- The values the loop variable takes in the body of
`for (double x {start}; x < bound; x += step)`, in order.  Each unit of `fuel` pays one test of
the loop condition; `none` when the fuel runs out before the loop exits. -/
def loop_points (step bound : α) : Nat → α → Option (List α)
  | 0, _ => none
  | fuel + 1, x =>
      if x < bound then (loop_points step bound fuel (x + step)).map (fun xs => x :: xs)
      else some []

/-- The loop `for (double x {start}; x < bound; x += step) body` run on a state of type `β`:
`body x s` is the state after one pass of the body (`none` when the pass is undefined).  Each
unit of `fuel` pays one test of the loop condition. -/
def for_loop {β : Type} (step bound : α) (body : α → β → Option β) : Nat → α → β → Option β
  | 0, _, _ => none
  | fuel + 1, x, s =>
      if x < bound then (body x s).bind (fun s1 => for_loop step bound body fuel (x + step) s1)
      else some s

/-- The seed lambda of the constructor: the seed given to `mt19937`, and the seed printed on
`cout` (if any).  `rd` is the value that `random_device` returns when it is asked;
`static_cast<unsigned int>` reduces modulo `2^32`. -/
def seed_value {σ : Type} (lib : stdlib α σ) (custom_seed : Option String) (rd : Nat) :
    Nat × Option Nat :=
  match custom_seed with
  | none => (rd, some rd)
  | some text => ((lib.atoi text % 2 ^ 32).toNat, none)

/-- One pass of the body of the constructor's loops, on the state
`(generator, random_bits, counter)`: the vector stored in the cell and the next state. -/
def fill_cell {σ : Type} (lib : stdlib α σ) (st : σ × Nat × Nat) : vec_2d α × (σ × Nat × Nat) :=
  let refreshed : σ × Nat × Nat :=
    if st.2.2 = 32 then ((lib.mt st.1).2, (lib.mt st.1).1, 0) else st
  let random_bits : Nat := refreshed.2.1
  let counter : Nat := refreshed.2.2
  let v1 : α := (lib.dist refreshed.1).1
  let v2 : α := (if random_bits % 2 = 1 then 1 else -1) * lib.sqrt (1 - v1 * v1)
  (⟨v1, v2⟩, ((lib.dist refreshed.1).2, random_bits / 2, counter + 1))

/-- The inner loop of the constructor, `for (auto& v : r)`: every cell of the row is
overwritten in order. -/
def fill_row {σ : Type} (lib : stdlib α σ) :
    List (vec_2d α) → σ × Nat × Nat → List (vec_2d α) × (σ × Nat × Nat)
  | [], st => ([], st)
  | _ :: r, st =>
      ((fill_cell lib st).1 :: (fill_row lib r (fill_cell lib st).2).1,
        (fill_row lib r (fill_cell lib st).2).2)

/-- The outer loop of the constructor, `for (auto& r : grid)`. -/
def fill_grid {σ : Type} (lib : stdlib α σ) :
    List (List (vec_2d α)) → σ × Nat × Nat → List (List (vec_2d α)) × (σ × Nat × Nat)
  | [], st => ([], st)
  | r :: rows, st =>
      ((fill_row lib r st).1 :: (fill_grid lib rows (fill_row lib r st).2).1,
        (fill_grid lib rows (fill_row lib r st).2).2)

variable [FloorRing α]

/-- The conversion of a `double` to an integer type: the fractional part is discarded
(truncation towards zero). -/
def truncate (x : α) : Int := if 0 ≤ x then ⌊x⌋ else ⌈x⌉

/-- The conversion of a `double` to `channel` done by `img.emplace_back`: the truncated value
when it fits an `unsigned char`, and undefined (`none`) otherwise. -/
def to_channel (x : α) : Option channel :=
  if 0 ≤ truncate x ∧ truncate x ≤ 255 then some (truncate x).toNat else none

/-- The member `get_coord_val`: the noise value at the coordinate `(r, c)`; `none` when one of
the four lattice lookups is out of range. -/
def get_coord_val (g : grid_2d α) (r c : α) : Option α :=
  let r_floor : Int := ⌊r⌋
  let c_floor : Int := ⌊c⌋
  let r_floor_dist : α := r - r_floor
  let c_floor_dist : α := c - c_floor
  let top_left_dist : vec_2d α := ⟨-r_floor_dist, c_floor_dist⟩
  let top_right_dist : vec_2d α := ⟨-r_floor_dist, c_floor_dist - 1⟩
  let bottom_left_dist : vec_2d α := ⟨1 - r_floor_dist, c_floor_dist⟩
  let bottom_right_dist : vec_2d α := ⟨1 - r_floor_dist, c_floor_dist - 1⟩
  match g.index r_floor c_floor, g.index r_floor (c_floor + 1),
        g.index (r_floor + 1) c_floor, g.index (r_floor + 1) (c_floor + 1) with
  | some tl, some tr, some bl, some br =>
      some (interp
        (interp (top_left_dist.dot tl) (top_right_dist.dot tr) c_floor_dist)
        (interp (bottom_left_dist.dot bl) (bottom_right_dist.dot br) c_floor_dist)
        r_floor_dist)
  | _, _, _, _ => none

/-- The pixel that `get_img_vec` stores for the coordinate `(r, c)`:
`to_greyscale (get_coord_val (r, c))` converted to `channel`. -/
def pixel (g : grid_2d α) (r c : α) : Option channel :=
  (g.get_coord_val r c).bind (fun d => to_channel (to_greyscale d))

/-- The body of the inner loop of `get_img_vec`: `img.emplace_back (...)`. -/
def emplace_pixel (g : grid_2d α) (r c : α) (img : List channel) : Option (List channel) :=
  (g.pixel r c).map (fun px => img ++ [px])

/-- The inner loop of `get_img_vec`, over the column coordinate `c`, for the row coordinate `r`. -/
def get_img_row (g : grid_2d α) (fuel : Nat) (r : α) (img : List channel) :
    Option (List channel) :=
  for_loop POINT_INTERVAL (g.grid_side - 1) (g.emplace_pixel r) fuel POINT_INTERVAL img

/-- The member `get_img_vec`: the two nested sampling loops.  `width` is only used by
`img.reserve`, which does not change the contents of `img`; each loop may test its condition
`fuel` times. -/
def get_img_vec (g : grid_2d α) (_width : Nat) (fuel : Nat) : Option (List channel) :=
  for_loop POINT_INTERVAL (g.grid_side - 1) (g.get_img_row fuel) fuel POINT_INTERVAL []

/-- The constructor `grid_2d (width, custom_seed)`: `grid_side` is `width / GRID_SCALE + 1`,
the lattice is allocated with `ceil (grid_side)` rows of `ceil (grid_side)` default vectors and
then filled with random vectors. -/
def grid_2d {σ : Type} (lib : stdlib α σ) (width : Nat) (custom_seed : Option String)
    (rd : Nat) : grid_2d α :=
  let grid_side : α := (width : α) / GRID_SCALE + 1
  let side : Nat := ⌈grid_side⌉.toNat
  let allocated : List (List (vec_2d α)) := List.replicate side (List.replicate side vec_2d.zero)
  let generator : σ := lib.mt19937 (seed_value lib custom_seed rd).1
  let random_bits : Nat := (lib.mt generator).1
  ⟨grid_side, (fill_grid lib allocated ((lib.mt generator).2, random_bits, 0)).1⟩

/-- A run of the program's core for a given width: the lattice of the constructor and the
pixel buffer of `get_img_vec`. -/
def run {σ : Type} (lib : stdlib α σ) (width : Nat) (custom_seed : Option String) (rd : Nat)
    (fuel : Nat) : List (List (vec_2d α)) × Option (List channel) :=
  ((grid_2d lib width custom_seed rd).grid,
    (grid_2d lib width custom_seed rd).get_img_vec width fuel)

end grid_2d

end model

/-- A lattice over `ℚ` for a width of 16: `grid_side = 2` and two rows of two unit vectors. -/
def example_grid : grid_2d ℚ :=
  ⟨2, [[⟨1, 0⟩, ⟨0, 1⟩], [⟨3 / 5, 4 / 5⟩, ⟨-1, 0⟩]]⟩

/-- A standard library over `ℚ` whose generator is a counter: the state after seeding is the
seed, a call returns the state as its word and adds one, every draw of the distribution is `0`
and `atoi` reads every text as `42`.  (Its `sqrt` is not exact; it is used where the lengths of
the vectors do not matter.) -/
def example_lib : stdlib ℚ Nat :=
  ⟨fun seed => seed, fun s => (s, s + 1), fun s => (0, s + 1), fun x => x, fun _ => 42⟩

section model_cells

variable {α : Type} [LinearOrderedField α]

namespace grid_2d

/-- The macro `top_left_dist` of `get_coord_val`, as a function of the two distances
`r_floor_dist` and `c_floor_dist`. -/
def top_left_dist (r_floor_dist c_floor_dist : α) : vec_2d α := ⟨-r_floor_dist, c_floor_dist⟩

/-- The macro `top_right_dist` of `get_coord_val`. -/
def top_right_dist (r_floor_dist c_floor_dist : α) : vec_2d α :=
  ⟨-r_floor_dist, c_floor_dist - 1⟩

/-- The macro `bottom_left_dist` of `get_coord_val`. -/
def bottom_left_dist (r_floor_dist c_floor_dist : α) : vec_2d α :=
  ⟨1 - r_floor_dist, c_floor_dist⟩

/-- The macro `bottom_right_dist` of `get_coord_val`. -/
def bottom_right_dist (r_floor_dist c_floor_dist : α) : vec_2d α :=
  ⟨1 - r_floor_dist, c_floor_dist - 1⟩

/-- The state `(generator, random_bits, counter)` of the constructor's loops before the cell
with row-major index `k` is filled, for the generator state `generator` after seeding. -/
def cell_state {σ : Type} (lib : stdlib α σ) (generator : σ) : Nat → σ × Nat × Nat
  | 0 => ((lib.mt generator).2, (lib.mt generator).1, 0)
  | k + 1 => (fill_cell lib (cell_state lib generator k)).2

/-- The words returned by the direct calls `mt ()` of the constructor, in order, up to the
moment the first `k` cells have been filled: the call before the loops, and one call in each
pass of the body that finds `counter == 32`. -/
def direct_words {σ : Type} (lib : stdlib α σ) (generator : σ) : Nat → List Nat
  | 0 => [(lib.mt generator).1]
  | k + 1 =>
      if (cell_state lib generator k).2.2 = 32 then
        direct_words lib generator k ++ [(lib.mt (cell_state lib generator k).1).1]
      else direct_words lib generator k

end grid_2d

/-- The return expression of `get_coord_val`, as a function of the two floors and of the two
distances to them: the noise formula of the lattice cell `(r_floor, c_floor)`. -/
def cell_formula (g : grid_2d α) (r_floor c_floor : Int) (r_floor_dist c_floor_dist : α) :
    Option α :=
  match g.index r_floor c_floor, g.index r_floor (c_floor + 1),
        g.index (r_floor + 1) c_floor, g.index (r_floor + 1) (c_floor + 1) with
  | some tl, some tr, some bl, some br =>
      some (grid_2d.interp
        (grid_2d.interp ((grid_2d.top_left_dist r_floor_dist c_floor_dist).dot tl)
          ((grid_2d.top_right_dist r_floor_dist c_floor_dist).dot tr) c_floor_dist)
        (grid_2d.interp ((grid_2d.bottom_left_dist r_floor_dist c_floor_dist).dot bl)
          ((grid_2d.bottom_right_dist r_floor_dist c_floor_dist).dot br) c_floor_dist)
        r_floor_dist)
  | _, _, _, _ => none

/-- The vector from the lattice corner `(i, j)` to the sample point `(r, c)`, in (row, column)
components, as the specification words the distance vector (not a part of the program). -/
def corner_to_sample (i j : Int) (r c : α) : vec_2d α := ⟨r - i, c - j⟩

variable [FloorRing α]

/-- The noise value obtained when each corner's gradient is dotted with `corner_to_sample` of
that corner in place of the distance macros of `get_coord_val` (not a part of the program,
used for comparison). -/
def noise_corner_to_sample (g : grid_2d α) (r c : α) : Option α :=
  match g.index ⌊r⌋ ⌊c⌋, g.index ⌊r⌋ (⌊c⌋ + 1),
        g.index (⌊r⌋ + 1) ⌊c⌋, g.index (⌊r⌋ + 1) (⌊c⌋ + 1) with
  | some tl, some tr, some bl, some br =>
      some (grid_2d.interp
        (grid_2d.interp ((corner_to_sample ⌊r⌋ ⌊c⌋ r c).dot tl)
          ((corner_to_sample ⌊r⌋ (⌊c⌋ + 1) r c).dot tr) (c - ⌊c⌋))
        (grid_2d.interp ((corner_to_sample (⌊r⌋ + 1) ⌊c⌋ r c).dot bl)
          ((corner_to_sample (⌊r⌋ + 1) (⌊c⌋ + 1) r c).dot br) (c - ⌊c⌋))
        (r - ⌊r⌋))
  | _, _, _, _ => none

/-- The constructor on a machine that can allocate `memory` bytes.  The lattice holds
`ceil (grid_side)` rows of `ceil (grid_side)` vectors, and a `vec_2d` is two `double`s, 16
bytes: when the vectors alone do not fit in `memory` bytes the allocation of `grid` throws,
and no object is built (`none`). -/
def construct {σ : Type} (lib : stdlib α σ) (memory width : Nat) (custom_seed : Option String)
    (rd : Nat) : Option (grid_2d α) :=
  if 16 * (⌈(width : α) / grid_2d.GRID_SCALE + 1⌉.toNat
      * ⌈(width : α) / grid_2d.GRID_SCALE + 1⌉.toNat) ≤ memory then
    some (grid_2d.grid_2d lib width custom_seed rd)
  else none

end model_cells

/-- A lattice over `ℚ` for a width of 32: `grid_side = 3` and three rows of three unit
vectors. -/
def example_grid3 : grid_2d ℚ :=
  ⟨3, [[⟨1, 0⟩, ⟨0, 1⟩, ⟨-1, 0⟩], [⟨3 / 5, 4 / 5⟩, ⟨0, -1⟩, ⟨4 / 5, -3 / 5⟩],
    [⟨0, 1⟩, ⟨-3 / 5, 4 / 5⟩, ⟨1, 0⟩]]⟩

/-! ## The arithmetic of `double`

The program computes in `double` (IEEE 754 binary64, round to nearest, ties to even).  Here a
finite `double` is the rational number it stands for (the two zeros are one value), and `none`
stands for a value that is not finite (an infinity or a NaN).  Every operation is the exact
operation followed by one rounding, as the source is written: no fused multiply-add. -/

/-- The power `2^k` of two for an integer exponent `k`. -/
def two_pow (k : Int) : ℚ :=
  if 0 ≤ k then ((2 ^ k.toNat : Nat) : ℚ) else 1 / ((2 ^ (-k).toNat : Nat) : ℚ)

/-- The number of binary digits of `n`, counted by halving at most `fuel` times. -/
def binary_digits_aux : Nat → Nat → Nat
  | 0, _ => 0
  | fuel + 1, n => if n = 0 then 0 else binary_digits_aux fuel (n / 2) + 1

/-- The number of binary digits of `n`: `0` for `0`, and `k` for `2^(k-1) ≤ n < 2^k`. -/
def binary_digits (n : Nat) : Nat := binary_digits_aux n n

/-- The binary exponent of a rational `x ≠ 0`: the integer `e` with `2^e ≤ |x| < 2^(e+1)`.  For
a numerator of `a` digits and a denominator of `b` digits it is `a - b` or `a - b - 1`. -/
def double_exponent (x : ℚ) : Int :=
  if two_pow ((binary_digits x.num.natAbs : Int) - (binary_digits x.den : Int)) ≤ |x| then
    (binary_digits x.num.natAbs : Int) - (binary_digits x.den : Int)
  else (binary_digits x.num.natAbs : Int) - (binary_digits x.den : Int) - 1

/-- Rounding of a rational to the nearest integer, ties to the even one. -/
def round_half_even (y : ℚ) : Int :=
  if y - ⌊y⌋ < 1 / 2 then ⌊y⌋
  else if 1 / 2 < y - ⌊y⌋ then ⌊y⌋ + 1
  else if ⌊y⌋ % 2 = 0 then ⌊y⌋ else ⌊y⌋ + 1

/-- The spacing of the `double`s around `x`: `2^(e - 52)` for the binary exponent `e` of `x`,
and `2^-1074` in the subnormal range `e < -1022`. -/
def double_spacing (x : ℚ) : ℚ := two_pow (max (double_exponent x) (-1022) - 52)

/-- The rounding of the exact result `x` of an operation to a `double`: the nearest multiple of
the spacing, ties to the even multiple, and `none` when that value is not finite, that is when
it reaches `2^1024` (overflow to an infinity). -/
def round_double (x : ℚ) : Option ℚ :=
  if |(round_half_even (x / double_spacing x) : ℚ) * double_spacing x| < two_pow 1024 then
    some ((round_half_even (x / double_spacing x) : ℚ) * double_spacing x)
  else none

/-- The function `nextafter (x, 0)` at a positive normal `double` `x`: the greatest `double`
below `x`, which lies one spacing below `x`, and half a spacing below when `x` is a power of
two (the least `double` of its binade). -/
def nextafter_zero (x : ℚ) : ℚ :=
  if x = two_pow (double_exponent x) then x - double_spacing x / 2 else x - double_spacing x

/-- The sum of two `double`s, `x + y`.  An operand that is not finite gives a result that is
not finite. -/
def double_add (x y : Option ℚ) : Option ℚ :=
  x.bind (fun a => y.bind (fun b => round_double (a + b)))

/-- The difference of two `double`s, `x - y`. -/
def double_sub (x y : Option ℚ) : Option ℚ :=
  x.bind (fun a => y.bind (fun b => round_double (a - b)))

/-- The product of two `double`s, `x * y`. -/
def double_mul (x y : Option ℚ) : Option ℚ :=
  x.bind (fun a => y.bind (fun b => round_double (a * b)))

/-- The negation of a `double`, `-x`: exact. -/
def double_neg (x : Option ℚ) : Option ℚ := x.map (fun a => -a)

/-- The blend weight of `interp` in `double` arithmetic: the subexpression
`t * t * t * (3 * t * (2 * t - 5) + 10)`, every operation rounded, grouped as C++ groups it:
`((t * t) * t) * (((3 * t) * ((2 * t) - 5)) + 10)`. -/
def weight_double (t : Option ℚ) : Option ℚ :=
  double_mul (double_mul (double_mul t t) t)
    (double_add (double_mul (double_mul (some 3) t) (double_sub (double_mul (some 2) t) (some 5)))
      (some 10))

/-- The member `interp` in `double` arithmetic:
`start + t * t * t * (3 * t * (2 * t - 5) + 10) * (end - start)`, that is
`start + (weight * (end - start))`, every operation rounded. -/
def interp_double (start «end» t : Option ℚ) : Option ℚ :=
  double_add start (double_mul (weight_double t) (double_sub «end» start))

/-- The member `operator *` of `vec_2d` in `double` arithmetic: `v1 * b.v1 + v2 * b.v2`. -/
def dot_double (a : vec_2d (Option ℚ)) (b : vec_2d ℚ) : Option ℚ :=
  double_add (double_mul a.v1 (some b.v1)) (double_mul a.v2 (some b.v2))

/-- The return expression of `get_coord_val` in `double` arithmetic, as a function of the two
floors and of the two distances to them: the noise formula of the lattice cell
`(r_floor, c_floor)`.  `none` when a lattice lookup is out of range or the value is not finite.
(The index `c_floor + 1` is taken exactly: the sum is exact in `double` below `2^53`.) -/
def cell_formula_double (g : grid_2d ℚ) (r_floor c_floor : Int)
    (r_floor_dist c_floor_dist : Option ℚ) : Option ℚ :=
  match g.index r_floor c_floor, g.index r_floor (c_floor + 1),
        g.index (r_floor + 1) c_floor, g.index (r_floor + 1) (c_floor + 1) with
  | some tl, some tr, some bl, some br =>
      interp_double
        (interp_double
          (dot_double ⟨double_neg r_floor_dist, c_floor_dist⟩ tl)
          (dot_double ⟨double_neg r_floor_dist, double_sub c_floor_dist (some 1)⟩ tr)
          c_floor_dist)
        (interp_double
          (dot_double ⟨double_sub (some 1) r_floor_dist, c_floor_dist⟩ bl)
          (dot_double ⟨double_sub (some 1) r_floor_dist, double_sub c_floor_dist (some 1)⟩ br)
          c_floor_dist)
        r_floor_dist
  | _, _, _, _ => none

/-- The member `get_coord_val` in `double` arithmetic, at the finite coordinates `(r, c)`:
`floor` is exact, the distances `r - r_floor` and `c - c_floor` are rounded subtractions. -/
def get_coord_val_double (g : grid_2d ℚ) (r c : ℚ) : Option ℚ :=
  cell_formula_double g ⌊r⌋ ⌊c⌋ (double_sub (some r) (some ⌊r⌋)) (double_sub (some c) (some ⌊c⌋))

/-- The member `to_greyscale` in `double` arithmetic: `(d + 1) * BEFORE_128`. -/
def to_greyscale_double (d : Option ℚ) : Option ℚ :=
  double_mul (double_add d (some 1)) (some grid_2d.BEFORE_128)

/-- The pixel that `get_img_vec` stores for the coordinate `(r, c)` in `double` arithmetic:
the `double` `to_greyscale (get_coord_val (r, c))` converted to `channel`; the conversion of a
value that is not finite is undefined, like that of a value out of range. -/
def pixel_double (g : grid_2d ℚ) (r c : ℚ) : Option channel :=
  (to_greyscale_double (get_coord_val_double g r c)).bind grid_2d.to_channel

/-- The body of the inner loop of `get_img_vec` in `double` arithmetic. -/
def emplace_pixel_double (g : grid_2d ℚ) (r c : ℚ) (img : List channel) :
    Option (List channel) :=
  (pixel_double g r c).map (fun px => img ++ [px])

/-- The values the loop variable takes in the body of
`for (double x {start}; x < bound; x += POINT_INTERVAL)` in `double` arithmetic, in order.
A sum that overflows makes the variable `+infinity`, which fails the test.  Each unit of `fuel`
pays one test of the loop condition. -/
def loop_points_double (bound : ℚ) : Nat → ℚ → Option (List ℚ)
  | 0, _ => none
  | fuel + 1, x =>
      if x < bound then
        match round_double (x + grid_2d.POINT_INTERVAL) with
        | some x1 => (loop_points_double bound fuel x1).map (fun xs => x :: xs)
        | none => some [x]
      else some []

/-- The loop `for (double x {start}; x < bound; x += POINT_INTERVAL) body` in `double`
arithmetic, run on a state of type `β`. -/
def for_loop_double {β : Type} (bound : ℚ) (body : ℚ → β → Option β) : Nat → ℚ → β → Option β
  | 0, _, _ => none
  | fuel + 1, x, s =>
      if x < bound then
        (body x s).bind (fun s1 =>
          match round_double (x + grid_2d.POINT_INTERVAL) with
          | some x1 => for_loop_double bound body fuel x1 s1
          | none => some s1)
      else some s

/-- The member `get_img_vec` in `double` arithmetic: the two nested sampling loops, with the
bound `grid_side - 1` a rounded subtraction. -/
def get_img_vec_double (g : grid_2d ℚ) (_width : Nat) (fuel : Nat) : Option (List channel) :=
  (round_double (g.grid_side - 1)).bind (fun bound =>
    for_loop_double bound
      (fun r img => for_loop_double bound (emplace_pixel_double g r) fuel
        grid_2d.POINT_INTERVAL img)
      fuel grid_2d.POINT_INTERVAL [])

/-- The member `grid_side` that the constructor computes for a width in `double` arithmetic:
the width converted to `double`, divided by `GRID_SCALE`, plus one. -/
def grid_side_double (width : Nat) : Option ℚ :=
  double_add ((round_double (width : ℚ)).bind (fun w => round_double (w / grid_2d.GRID_SCALE)))
    (some 1)

/-- The coordinate with index `k` (from `0`) that the sampling loops of `get_img_vec` visit in
`double` arithmetic: the greatest `double` below `(k + 1) / 16`. -/
def sample_double (k : Nat) : ℚ := nextafter_zero (((k : ℚ) + 1) / 16)

/-- The `double` `0.1`: the `double` nearest to `1/10`. -/
def double_tenth : ℚ := 3602879701896397 / 36028797018963968

/-- A lattice of `double`s for a width of 32: `grid_side = 3` and three rows of three unit
vectors along the axes. -/
def example_grid_axes : grid_2d ℚ :=
  ⟨3, [[⟨-1, 0⟩, ⟨0, 1⟩, ⟨0, -1⟩], [⟨0, -1⟩, ⟨-1, 0⟩, ⟨0, 1⟩], [⟨0, 1⟩, ⟨0, -1⟩, ⟨-1, 0⟩]]⟩

section lattice_facts

variable {α : Type}

open grid_2d

theorem index_some (g : grid_2d α) (n : Nat) (hrows : g.grid.length = n)
    (hcols : ∀ row, row ∈ g.grid → row.length = n) (i j : Int)
    (hi0 : 0 ≤ i) (hi : i < n) (hj0 : 0 ≤ j) (hj : j < n) :
    ∃ v, g.index i j = some v ∧ ∃ row, row ∈ g.grid ∧ v ∈ row := by
  have h1 : i.toNat < g.grid.length := by omega
  have hrow : g.grid.get ⟨i.toNat, h1⟩ ∈ g.grid := List.get_mem _ _ _
  have h2 : j.toNat < (g.grid.get ⟨i.toNat, h1⟩).length := by
    rw [hcols _ hrow]; omega
  refine ⟨(g.grid.get ⟨i.toNat, h1⟩).get ⟨j.toNat, h2⟩, ?_, _, hrow, List.get_mem _ _ _⟩
  unfold index
  rw [if_pos ⟨hi0, hj0⟩, List.get?_eq_get h1, Option.some_bind, List.get?_eq_get h2]

end lattice_facts

section field_facts

variable {α : Type} [LinearOrderedField α]

open grid_2d

/-! ## The smootherstep weight -/

theorem interp_eq_mix (s e t : α) :
    interp s e t
      = (1 - t * t * t * (3 * t * (2 * t - 5) + 10)) * s
        + t * t * t * (3 * t * (2 * t - 5) + 10) * e := by
  unfold interp; ring

theorem weight_nonneg (t : α) (h0 : 0 ≤ t) : 0 ≤ t * t * t * (3 * t * (2 * t - 5) + 10) := by
  have h1 : 0 ≤ t * t * t := mul_nonneg (mul_nonneg h0 h0) h0
  have h2 : 0 ≤ 3 * t * (2 * t - 5) + 10 := by nlinarith [sq_nonneg (t - 5 / 4)]
  exact mul_nonneg h1 h2

theorem weight_le_one (t : α) (h0 : 0 ≤ t) (h1 : t ≤ 1) :
    t * t * t * (3 * t * (2 * t - 5) + 10) ≤ 1 := by
  have e : 1 - t * t * t * (3 * t * (2 * t - 5) + 10)
      = (1 - t) * (1 - t) * (1 - t) * (6 * (t * t) + 3 * t + 1) := by ring
  have h2 : 0 ≤ 1 - t := sub_nonneg.2 h1
  have h3 : 0 ≤ (1 - t) * (1 - t) * (1 - t) := mul_nonneg (mul_nonneg h2 h2) h2
  have h4 : 0 ≤ 6 * (t * t) + 3 * t + 1 := by nlinarith [mul_nonneg h0 h0]
  have h5 := mul_nonneg h3 h4
  rw [← e] at h5
  linarith

/-- The blend of the distances `t` and `1 - t` to the two neighbouring lattice lines never
exceeds one half. -/
theorem weight_mix_le_half (t : α) :
    (1 - t * t * t * (3 * t * (2 * t - 5) + 10)) * t
      + t * t * t * (3 * t * (2 * t - 5) + 10) * (1 - t) ≤ 1 / 2 := by
  have e : 1 / 2 - ((1 - t * t * t * (3 * t * (2 * t - 5) + 10)) * t
      + t * t * t * (3 * t * (2 * t - 5) + 10) * (1 - t))
      = (t - 1 / 2) ^ 2 * (12 * ((t - 1 / 2) ^ 2 - 5 / 12) ^ 2 + 5 / 3) := by ring
  have h : 0 ≤ (t - 1 / 2) ^ 2 * (12 * ((t - 1 / 2) ^ 2 - 5 / 12) ^ 2 + 5 / 3) := by positivity
  rw [← e] at h
  linarith

/-- A blend with a weight in `[0, 1]` is monotone in both blended values. -/
theorem mix_le_mix (w s e S E : α) (h0 : 0 ≤ w) (h1 : w ≤ 1) (hs : s ≤ S) (he : e ≤ E) :
    (1 - w) * s + w * e ≤ (1 - w) * S + w * E := by
  have a1 := mul_le_mul_of_nonneg_left hs (sub_nonneg.2 h1)
  have a2 := mul_le_mul_of_nonneg_left he h0
  linarith

/-! ## Unit vectors and dot products -/

theorem unit_abs_le_one (x y : α) (h : x ^ 2 + y ^ 2 = 1) : |x| ≤ 1 ∧ |y| ≤ 1 := by
  constructor
  · rw [abs_le]; constructor <;> nlinarith [sq_nonneg y, sq_nonneg (x + 1), sq_nonneg (x - 1)]
  · rw [abs_le]; constructor <;> nlinarith [sq_nonneg x, sq_nonneg (y + 1), sq_nonneg (y - 1)]

theorem dot_abs_le (d v : vec_2d α) (h : v.v1 ^ 2 + v.v2 ^ 2 = 1) :
    |d.dot v| ≤ |d.v1| + |d.v2| := by
  obtain ⟨h1, h2⟩ := unit_abs_le_one v.v1 v.v2 h
  unfold vec_2d.dot
  calc |d.v1 * v.v1 + d.v2 * v.v2| ≤ |d.v1 * v.v1| + |d.v2 * v.v2| := abs_add _ _
    _ = |d.v1| * |v.v1| + |d.v2| * |v.v2| := by rw [abs_mul, abs_mul]
    _ ≤ |d.v1| * 1 + |d.v2| * 1 :=
        add_le_add (mul_le_mul_of_nonneg_left h1 (abs_nonneg _))
          (mul_le_mul_of_nonneg_left h2 (abs_nonneg _))
    _ = |d.v1| + |d.v2| := by ring

/-- The noise formula of one cell is bounded by `1` when the four gradients are unit vectors and
the fractions `a`, `b` lie in `[0, 1]`. -/
theorem cell_value_abs_le_one (a b : α) (tl tr bl br : vec_2d α)
    (ha0 : 0 ≤ a) (ha1 : a ≤ 1) (hb0 : 0 ≤ b) (hb1 : b ≤ 1)
    (htl : tl.v1 ^ 2 + tl.v2 ^ 2 = 1) (htr : tr.v1 ^ 2 + tr.v2 ^ 2 = 1)
    (hbl : bl.v1 ^ 2 + bl.v2 ^ 2 = 1) (hbr : br.v1 ^ 2 + br.v2 ^ 2 = 1) :
    |interp (interp ((⟨-a, b⟩ : vec_2d α).dot tl) ((⟨-a, b - 1⟩ : vec_2d α).dot tr) b)
        (interp ((⟨1 - a, b⟩ : vec_2d α).dot bl) ((⟨1 - a, b - 1⟩ : vec_2d α).dot br) b) a|
      ≤ 1 := by
  have dtl := dot_abs_le (⟨-a, b⟩ : vec_2d α) tl htl
  have dtr := dot_abs_le (⟨-a, b - 1⟩ : vec_2d α) tr htr
  have dbl := dot_abs_le (⟨1 - a, b⟩ : vec_2d α) bl hbl
  have dbr := dot_abs_le (⟨1 - a, b - 1⟩ : vec_2d α) br hbr
  simp only [abs_neg, abs_of_nonneg ha0, abs_of_nonneg hb0,
    abs_of_nonneg (sub_nonneg.2 ha1), abs_of_nonpos (sub_nonpos.2 hb1)] at dtl dtr dbl dbr
  generalize (⟨-a, b⟩ : vec_2d α).dot tl = p at dtl ⊢
  generalize (⟨-a, b - 1⟩ : vec_2d α).dot tr = q at dtr ⊢
  generalize (⟨1 - a, b⟩ : vec_2d α).dot bl = u at dbl ⊢
  generalize (⟨1 - a, b - 1⟩ : vec_2d α).dot br = v at dbr ⊢
  rw [abs_le] at dtl dtr dbl dbr
  have wa0 := weight_nonneg a ha0
  have wa1 := weight_le_one a ha0 ha1
  have wb0 := weight_nonneg b hb0
  have wb1 := weight_le_one b hb0 hb1
  have fa := weight_mix_le_half a
  have fb := weight_mix_le_half b
  simp only [interp_eq_mix]
  generalize a * a * a * (3 * a * (2 * a - 5) + 10) = wa at wa0 wa1 fa ⊢
  generalize b * b * b * (3 * b * (2 * b - 5) + 10) = wb at wb0 wb1 fb ⊢
  rw [abs_le]
  constructor
  · have top := mix_le_mix wb (-(a + b)) (-(a + -(b - 1))) p q wb0 wb1 dtl.1 dtr.1
    have bot := mix_le_mix wb (-(1 - a + b)) (-(1 - a + -(b - 1))) u v wb0 wb1 dbl.1 dbr.1
    have all := mix_le_mix wa _ _ _ _ wa0 wa1 top bot
    linarith [all, fa, fb]
  · have top := mix_le_mix wb p q (a + b) (a + -(b - 1)) wb0 wb1 dtl.2 dtr.2
    have bot := mix_le_mix wb u v (1 - a + b) (1 - a + -(b - 1)) wb0 wb1 dbl.2 dbr.2
    have all := mix_le_mix wa _ _ _ _ wa0 wa1 top bot
    linarith [all, fa, fb]

/-! ## The sampling loops -/

/-- A loop that passes its test exactly `n` times visits `x, x + step, ..., x + (n - 1) step`. -/
theorem loop_points_eq (step bound : α) (n : Nat) :
    ∀ (fuel : Nat) (x : α), (∀ k, k < n → x + (k : α) * step < bound) →
      ¬ (x + (n : α) * step < bound) → n < fuel →
      loop_points step bound fuel x
        = some ((List.range n).map (fun k : Nat => x + (k : α) * step)) := by
  induction n with
  | zero =>
      intro fuel x _ hstop hfuel
      obtain ⟨f, rfl⟩ : ∃ f, fuel = f + 1 := ⟨fuel - 1, by omega⟩
      have hx : ¬ (x < bound) := by simpa using hstop
      simp [loop_points, hx]
  | succ n ih =>
      intro fuel x hgo hstop hfuel
      obtain ⟨f, rfl⟩ : ∃ f, fuel = f + 1 := ⟨fuel - 1, by omega⟩
      have hx : x < bound := by simpa using hgo 0 (Nat.succ_pos n)
      have hgo1 : ∀ k, k < n → x + step + (k : α) * step < bound := by
        intro k hk
        have h := hgo (k + 1) (Nat.succ_lt_succ hk)
        push_cast at h
        linarith
      have hstop1 : ¬ (x + step + (n : α) * step < bound) := by
        intro h
        apply hstop
        push_cast
        linarith
      rw [loop_points, if_pos hx, ih f (x + step) hgo1 hstop1 (by omega)]
      simp only [Option.map_some', List.range_succ_eq_map, List.map_cons, List.map_map]
      congr 2
      · simp
      · apply List.map_congr_left
        intro k _
        simp only [Function.comp, Nat.cast_succ]
        ring

/-- The loop exits only when its condition fails: the value after the last visited one is not
below the bound. -/
theorem loop_points_exit (step bound : α) :
    ∀ (fuel : Nat) (x : α) (xs : List α), loop_points step bound fuel x = some xs →
      ¬ (x + (xs.length : α) * step < bound) := by
  intro fuel
  induction fuel with
  | zero => intro x xs h; simp [loop_points] at h
  | succ f ih =>
      intro x xs h
      rw [loop_points] at h
      by_cases hx : x < bound
      · rw [if_pos hx] at h
        cases hrec : loop_points step bound f (x + step) with
        | none => rw [hrec] at h; simp at h
        | some ys =>
            rw [hrec] at h
            simp only [Option.map_some', Option.some.injEq] at h
            subst h
            have := ih (x + step) ys hrec
            intro hlt
            apply this
            simp only [List.length_cons] at hlt
            push_cast at hlt
            linarith
      · rw [if_neg hx] at h
        simp only [Option.some.injEq] at h
        subst h
        simpa using hx

/-- Every value the loop visits lies between the start value and the bound. -/
theorem loop_points_mem (step bound : α) (hstep : 0 ≤ step) :
    ∀ (fuel : Nat) (x : α) (xs : List α), loop_points step bound fuel x = some xs →
      ∀ y, y ∈ xs → x ≤ y ∧ y < bound := by
  intro fuel
  induction fuel with
  | zero => intro x xs h; simp [loop_points] at h
  | succ f ih =>
      intro x xs h y hy
      rw [loop_points] at h
      by_cases hx : x < bound
      · rw [if_pos hx] at h
        cases hrec : loop_points step bound f (x + step) with
        | none => rw [hrec] at h; simp at h
        | some ys =>
            rw [hrec] at h
            simp only [Option.map_some', Option.some.injEq] at h
            subst h
            rcases List.mem_cons.1 hy with rfl | hy1
            · exact ⟨le_refl _, hx⟩
            · have := ih (x + step) ys hrec y hy1
              exact ⟨by linarith [this.1], this.2⟩
      · rw [if_neg hx] at h
        simp only [Option.some.injEq] at h
        subst h
        simp at hy

/-- A loop whose condition fails after at most `n` passes exits within `n + 1` tests. -/
theorem loop_points_some (step bound : α) (n : Nat) :
    ∀ (fuel : Nat) (x : α), ¬ (x + (n : α) * step < bound) → n < fuel →
      ∃ xs, loop_points step bound fuel x = some xs := by
  induction n with
  | zero =>
      intro fuel x hstop hfuel
      obtain ⟨f, rfl⟩ : ∃ f, fuel = f + 1 := ⟨fuel - 1, by omega⟩
      have hx : ¬ (x < bound) := by simpa using hstop
      exact ⟨[], by simp [loop_points, hx]⟩
  | succ n ih =>
      intro fuel x hstop hfuel
      obtain ⟨f, rfl⟩ : ∃ f, fuel = f + 1 := ⟨fuel - 1, by omega⟩
      by_cases hx : x < bound
      · have hstop1 : ¬ (x + step + (n : α) * step < bound) := by
          intro h
          apply hstop
          push_cast
          linarith
        obtain ⟨ys, hys⟩ := ih f (x + step) hstop1 (by omega)
        exact ⟨x :: ys, by simp [loop_points, hx, hys]⟩
      · exact ⟨[], by simp [loop_points, hx]⟩

/-- A loop runs its body on the visited values, in order. -/
theorem for_loop_eq_foldlM {β : Type} (step bound : α) (body : α → β → Option β) :
    ∀ (fuel : Nat) (x : α) (s : β),
      for_loop step bound body fuel x s
        = (loop_points step bound fuel x).bind
            (fun xs => xs.foldlM (fun s1 y => body y s1) s) := by
  intro fuel
  induction fuel with
  | zero => intro x s; simp [for_loop, loop_points]
  | succ f ih =>
      intro x s
      rw [for_loop, loop_points]
      by_cases hx : x < bound
      · rw [if_pos hx, if_pos hx]
        cases hb : body x s with
        | none =>
            cases hrec : loop_points step bound f (x + step) with
            | none => simp
            | some ys => simp [List.foldlM_cons, hb]
        | some s1 =>
            rw [Option.some_bind, ih (x + step) s1]
            cases hrec : loop_points step bound f (x + step) with
            | none => simp
            | some ys => simp [List.foldlM_cons, hb]
      · rw [if_neg hx, if_neg hx]
        simp

/-! ## The sampling step `POINT_INTERVAL` -/

theorem POINT_INTERVAL_pos : (0 : α) < POINT_INTERVAL := by
  unfold POINT_INTERVAL GRID_SCALE; norm_num

/-- The first `W` sample coordinates `POINT_INTERVAL, 2 POINT_INTERVAL, ...` are below
`grid_side - 1 = W / 16`. -/
theorem sample_below (W k : Nat) (hk : k < W) :
    POINT_INTERVAL + (k : α) * POINT_INTERVAL < (W : α) / GRID_SCALE + 1 - 1 := by
  have h1 : (k : α) + 1 ≤ (W : α) := by exact_mod_cast hk
  have h0 : (0 : α) ≤ (k : α) := Nat.cast_nonneg k
  unfold POINT_INTERVAL GRID_SCALE
  norm_num
  linarith

/-- The coordinate after the first `W` ones is not below `grid_side - 1 = W / 16`, as long as
`W < 2^53`. -/
theorem sample_not_below (W : Nat) (hW : W < 2 ^ 53) :
    ¬ (POINT_INTERVAL + (W : α) * POINT_INTERVAL < (W : α) / GRID_SCALE + 1 - 1) := by
  have h1 : (W : α) + 1 ≤ 2 ^ 53 := by exact_mod_cast hW
  unfold POINT_INTERVAL GRID_SCALE
  norm_num
  linarith

/-- After `2 W` steps the coordinate has passed `W / 16`, whatever the width. -/
theorem sample_not_below_twice (W : Nat) :
    ¬ (POINT_INTERVAL + ((2 * W : Nat) : α) * POINT_INTERVAL < (W : α) / GRID_SCALE + 1 - 1) := by
  have h0 : (0 : α) ≤ (W : α) := Nat.cast_nonneg W
  unfold POINT_INTERVAL GRID_SCALE
  push_cast
  norm_num
  linarith

/-- The sample coordinates of one axis for a width `W < 2^53`: exactly the `W` values
`(k + 1) POINT_INTERVAL`, `k < W`. -/
theorem sample_points_eq (W fuel : Nat) (hW : W < 2 ^ 53) (hfuel : W < fuel) :
    loop_points (POINT_INTERVAL : α) ((W : α) / GRID_SCALE + 1 - 1) fuel POINT_INTERVAL
      = some ((List.range W).map (fun k : Nat => POINT_INTERVAL + (k : α) * POINT_INTERVAL)) :=
  loop_points_eq POINT_INTERVAL _ W fuel POINT_INTERVAL (fun k hk => sample_below W k hk)
    (sample_not_below W hW) hfuel

/-- With the step exactly `1 / GRID_SCALE` the loop visits `W - 1` values. -/
theorem exact_step_points_eq (W fuel : Nat) (hW : 1 ≤ W) (hfuel : W ≤ fuel) :
    loop_points (1 / GRID_SCALE : α) ((W : α) / GRID_SCALE + 1 - 1) fuel (1 / GRID_SCALE)
      = some ((List.range (W - 1)).map
          (fun k : Nat => 1 / GRID_SCALE + (k : α) * (1 / GRID_SCALE))) := by
  apply loop_points_eq
  · intro k hk
    have h1 : (k : α) + 1 + 1 ≤ (W : α) := by
      have : k + 1 + 1 ≤ W := by omega
      exact_mod_cast this
    unfold GRID_SCALE
    norm_num
    linarith
  · have h1 : ((W - 1 : Nat) : α) = (W : α) - 1 := by
      rw [Nat.cast_sub hW]; simp
    rw [h1]
    unfold GRID_SCALE
    norm_num
    linarith
  · omega

/-! ## Lists of pixels -/

theorem length_flatten_map_map {γ : Type} (W : Nat) (f : Nat → Nat → γ) :
    (((List.range W).map (fun i => (List.range W).map (fun j => f i j))).flatten).length
      = W * W := by
  rw [List.length_flatten, List.map_map]
  have : (List.length ∘ fun i => (List.range W).map (fun j => f i j)) = fun _ => W := by
    funext i; simp
  rw [this, List.map_const', List.sum_replicate]
  simp

/-! ## The greyscale remap -/

theorem to_greyscale_range (d : α) (h0 : -1 ≤ d) (h1 : d ≤ 1) :
    0 ≤ to_greyscale d ∧ to_greyscale d < 256 := by
  unfold to_greyscale BEFORE_128
  constructor
  · exact mul_nonneg (by linarith) (by norm_num)
  · have h2 : (d + 1) * (128 - 1 / 2 ^ 46 : α) ≤ 2 * (128 - 1 / 2 ^ 46) :=
      mul_le_mul_of_nonneg_right (by linarith) (by norm_num)
    have h3 : (2 : α) * (128 - 1 / 2 ^ 46) < 256 := by norm_num
    linarith

/-! ## The loops of the constructor -/

theorem fill_row_length {σ : Type} (lib : stdlib α σ) :
    ∀ (r : List (vec_2d α)) (st : σ × Nat × Nat), (fill_row lib r st).1.length = r.length := by
  intro r
  induction r with
  | nil => intro st; rfl
  | cons v r ih => intro st; simp [fill_row, ih]

theorem fill_grid_length {σ : Type} (lib : stdlib α σ) :
    ∀ (rows : List (List (vec_2d α))) (st : σ × Nat × Nat),
      (fill_grid lib rows st).1.length = rows.length := by
  intro rows
  induction rows with
  | nil => intro st; rfl
  | cons r rows ih => intro st; simp [fill_grid, ih]

theorem fill_grid_row_length {σ : Type} (lib : stdlib α σ) (n : Nat) :
    ∀ (rows : List (List (vec_2d α))) (st : σ × Nat × Nat),
      (∀ r, r ∈ rows → r.length = n) →
      ∀ r, r ∈ (fill_grid lib rows st).1 → r.length = n := by
  intro rows
  induction rows with
  | nil => intro st _ r hr; simp [fill_grid] at hr
  | cons r0 rows ih =>
      intro st h r hr
      simp only [fill_grid, List.mem_cons] at hr
      rcases hr with rfl | hr
      · rw [fill_row_length]; exact h r0 (List.mem_cons_self r0 rows)
      · exact ih _ (fun r1 h1 => h r1 (List.mem_cons_of_mem r0 h1)) r hr

/-- The vector stored in a cell has unit length, when the draw lies in `[-1, 1]` and `sqrt` is
exact on `[0, 1]`. -/
theorem fill_cell_unit {σ : Type} (lib : stdlib α σ)
    (hdist : ∀ s, -1 ≤ (lib.dist s).1 ∧ (lib.dist s).1 ≤ 1)
    (hsqrt : ∀ x, 0 ≤ x → lib.sqrt x * lib.sqrt x = x) (st : σ × Nat × Nat) :
    (fill_cell lib st).1.v1 ^ 2 + (fill_cell lib st).1.v2 ^ 2 = 1 := by
  simp only [fill_cell]
  generalize (if st.2.2 = 32 then ((lib.mt st.1).2, (lib.mt st.1).1, 0) else st) = st1
  obtain ⟨d0, d1⟩ := hdist st1.1
  have h := hsqrt (1 - (lib.dist st1.1).1 * (lib.dist st1.1).1) (by nlinarith)
  split_ifs <;> nlinarith [h]

/-- The vector stored in a cell is `(v1, ± sqrt (1 - v1^2))` for a draw `v1`. -/
theorem fill_cell_form {σ : Type} (lib : stdlib α σ)
    (hdist : ∀ s, -1 ≤ (lib.dist s).1 ∧ (lib.dist s).1 ≤ 1) (st : σ × Nat × Nat) :
    ∃ sign : α, (sign = 1 ∨ sign = -1) ∧
      (fill_cell lib st).1.v2
        = sign * lib.sqrt (1 - (fill_cell lib st).1.v1 * (fill_cell lib st).1.v1) ∧
      -1 ≤ (fill_cell lib st).1.v1 ∧ (fill_cell lib st).1.v1 ≤ 1 := by
  simp only [fill_cell]
  generalize (if st.2.2 = 32 then ((lib.mt st.1).2, (lib.mt st.1).1, 0) else st) = st1
  obtain ⟨d0, d1⟩ := hdist st1.1
  by_cases hbit : st1.2.1 % 2 = 1
  · exact ⟨1, Or.inl rfl, by rw [if_pos hbit], d0, d1⟩
  · exact ⟨-1, Or.inr rfl, by rw [if_neg hbit], d0, d1⟩

theorem fill_row_mem {σ : Type} (lib : stdlib α σ) :
    ∀ (r : List (vec_2d α)) (st : σ × Nat × Nat),
      ∀ v, v ∈ (fill_row lib r st).1 → ∃ st1, v = (fill_cell lib st1).1 := by
  intro r
  induction r with
  | nil => intro st v hv; simp [fill_row] at hv
  | cons v0 r ih =>
      intro st v hv
      simp only [fill_row, List.mem_cons] at hv
      rcases hv with rfl | hv
      · exact ⟨st, rfl⟩
      · exact ih _ v hv

theorem fill_grid_mem {σ : Type} (lib : stdlib α σ) :
    ∀ (rows : List (List (vec_2d α))) (st : σ × Nat × Nat),
      ∀ r, r ∈ (fill_grid lib rows st).1 → ∀ v, v ∈ r → ∃ st1, v = (fill_cell lib st1).1 := by
  intro rows
  induction rows with
  | nil => intro st r hr; simp [fill_grid] at hr
  | cons r0 rows ih =>
      intro st r hr
      simp only [fill_grid, List.mem_cons] at hr
      rcases hr with rfl | hr
      · exact fill_row_mem lib r0 st
      · exact ih _ r hr

theorem fill_row_unit {σ : Type} (lib : stdlib α σ)
    (hdist : ∀ s, -1 ≤ (lib.dist s).1 ∧ (lib.dist s).1 ≤ 1)
    (hsqrt : ∀ x, 0 ≤ x → lib.sqrt x * lib.sqrt x = x) :
    ∀ (r : List (vec_2d α)) (st : σ × Nat × Nat),
      ∀ v, v ∈ (fill_row lib r st).1 → v.v1 ^ 2 + v.v2 ^ 2 = 1 := by
  intro r
  induction r with
  | nil => intro st v hv; simp [fill_row] at hv
  | cons v0 r ih =>
      intro st v hv
      simp only [fill_row, List.mem_cons] at hv
      rcases hv with rfl | hv
      · exact fill_cell_unit lib hdist hsqrt st
      · exact ih _ v hv

theorem fill_grid_unit {σ : Type} (lib : stdlib α σ)
    (hdist : ∀ s, -1 ≤ (lib.dist s).1 ∧ (lib.dist s).1 ≤ 1)
    (hsqrt : ∀ x, 0 ≤ x → lib.sqrt x * lib.sqrt x = x) :
    ∀ (rows : List (List (vec_2d α))) (st : σ × Nat × Nat),
      ∀ r, r ∈ (fill_grid lib rows st).1 → ∀ v, v ∈ r → v.v1 ^ 2 + v.v2 ^ 2 = 1 := by
  intro rows
  induction rows with
  | nil => intro st r hr; simp [fill_grid] at hr
  | cons r0 rows ih =>
      intro st r hr
      simp only [fill_grid, List.mem_cons] at hr
      rcases hr with rfl | hr
      · exact fill_row_unit lib hdist hsqrt r0 st
      · exact ih _ r hr

end field_facts

section floor_facts

variable {α : Type} [LinearOrderedField α] [FloorRing α]

open grid_2d

/-! ## Lattice lookups -/

/-- A coordinate in `[0, grid_side - 1)` has its floor, and its floor plus one, among the
indices `0 .. ceil (grid_side) - 1`. -/
theorem floor_in_range (side x : α) (h0 : 0 ≤ x) (h1 : x < side - 1) :
    0 ≤ ⌊x⌋ ∧ ⌊x⌋ + 1 ≤ ⌈side⌉ - 1 := by
  refine ⟨Int.floor_nonneg.2 h0, ?_⟩
  have h2 : x < ((⌈side⌉ - 1 : Int) : α) := by
    have := Int.le_ceil side
    push_cast
    linarith
  have h3 := Int.floor_lt.2 h2
  omega

theorem floor_lt_toNat_ceil (side x : α) (h0 : 0 ≤ x) (h1 : x < side - 1) :
    ⌊x⌋ < (⌈side⌉.toNat : Int) ∧ ⌊x⌋ + 1 < (⌈side⌉.toNat : Int) := by
  obtain ⟨h2, h3⟩ := floor_in_range side x h0 h1
  have h4 : (⌈side⌉.toNat : Int) = ⌈side⌉ := Int.toNat_of_nonneg (by omega)
  omega

/-- The four lookups of `get_coord_val` succeed for coordinates in `[0, grid_side - 1)`, on a
lattice with `ceil (grid_side)` rows of `ceil (grid_side)` vectors, and the value is the
blend of the four dot products. -/
theorem get_coord_val_eq (g : grid_2d α) (hrows : g.grid.length = ⌈g.grid_side⌉.toNat)
    (hcols : ∀ row, row ∈ g.grid → row.length = ⌈g.grid_side⌉.toNat) (r c : α)
    (hr0 : 0 ≤ r) (hr1 : r < g.grid_side - 1) (hc0 : 0 ≤ c) (hc1 : c < g.grid_side - 1) :
    ∃ tl tr bl br : vec_2d α,
      g.index ⌊r⌋ ⌊c⌋ = some tl ∧ g.index ⌊r⌋ (⌊c⌋ + 1) = some tr ∧
      g.index (⌊r⌋ + 1) ⌊c⌋ = some bl ∧ g.index (⌊r⌋ + 1) (⌊c⌋ + 1) = some br ∧
      (∃ row, row ∈ g.grid ∧ tl ∈ row) ∧ (∃ row, row ∈ g.grid ∧ tr ∈ row) ∧
      (∃ row, row ∈ g.grid ∧ bl ∈ row) ∧ (∃ row, row ∈ g.grid ∧ br ∈ row) ∧
      g.get_coord_val r c = some (interp
        (interp ((⟨-(r - ⌊r⌋), c - ⌊c⌋⟩ : vec_2d α).dot tl)
          ((⟨-(r - ⌊r⌋), c - ⌊c⌋ - 1⟩ : vec_2d α).dot tr) (c - ⌊c⌋))
        (interp ((⟨1 - (r - ⌊r⌋), c - ⌊c⌋⟩ : vec_2d α).dot bl)
          ((⟨1 - (r - ⌊r⌋), c - ⌊c⌋ - 1⟩ : vec_2d α).dot br) (c - ⌊c⌋))
        (r - ⌊r⌋)) := by
  obtain ⟨r0, _⟩ := floor_in_range g.grid_side r hr0 hr1
  obtain ⟨c0, _⟩ := floor_in_range g.grid_side c hc0 hc1
  obtain ⟨r1, r2⟩ := floor_lt_toNat_ceil g.grid_side r hr0 hr1
  obtain ⟨c1, c2⟩ := floor_lt_toNat_ceil g.grid_side c hc0 hc1
  obtain ⟨tl, htl, mtl⟩ := index_some g _ hrows hcols ⌊r⌋ ⌊c⌋ r0 r1 c0 c1
  obtain ⟨tr, htr, mtr⟩ := index_some g _ hrows hcols ⌊r⌋ (⌊c⌋ + 1) r0 r1 (by omega) c2
  obtain ⟨bl, hbl, mbl⟩ := index_some g _ hrows hcols (⌊r⌋ + 1) ⌊c⌋ (by omega) r2 c0 c1
  obtain ⟨br, hbr, mbr⟩ :=
    index_some g _ hrows hcols (⌊r⌋ + 1) (⌊c⌋ + 1) (by omega) r2 (by omega) c2
  refine ⟨tl, tr, bl, br, htl, htr, hbl, hbr, mtl, mtr, mbl, mbr, ?_⟩
  simp only [get_coord_val, htl, htr, hbl, hbr]

/-- On a lattice of unit vectors the noise value lies in `[-1, 1]`. -/
theorem get_coord_val_bounded (g : grid_2d α) (hrows : g.grid.length = ⌈g.grid_side⌉.toNat)
    (hcols : ∀ row, row ∈ g.grid → row.length = ⌈g.grid_side⌉.toNat)
    (hunit : ∀ row, row ∈ g.grid → ∀ v, v ∈ row → v.v1 ^ 2 + v.v2 ^ 2 = 1) (r c : α)
    (hr0 : 0 ≤ r) (hr1 : r < g.grid_side - 1) (hc0 : 0 ≤ c) (hc1 : c < g.grid_side - 1) :
    ∃ d, g.get_coord_val r c = some d ∧ -1 ≤ d ∧ d ≤ 1 := by
  obtain ⟨tl, tr, bl, br, -, -, -, -, ⟨_, m1, m1'⟩, ⟨_, m2, m2'⟩, ⟨_, m3, m3'⟩, ⟨_, m4, m4'⟩, hval⟩ :=
    get_coord_val_eq g hrows hcols r c hr0 hr1 hc0 hc1
  refine ⟨_, hval, ?_⟩
  have ha0 : 0 ≤ r - ⌊r⌋ := sub_nonneg.2 (Int.floor_le r)
  have ha1 : r - ⌊r⌋ ≤ 1 := by linarith [Int.lt_floor_add_one r]
  have hb0 : 0 ≤ c - ⌊c⌋ := sub_nonneg.2 (Int.floor_le c)
  have hb1 : c - ⌊c⌋ ≤ 1 := by linarith [Int.lt_floor_add_one c]
  exact abs_le.1 (cell_value_abs_le_one (r - ⌊r⌋) (c - ⌊c⌋) tl tr bl br ha0 ha1 hb0 hb1
    (hunit _ m1 _ m1') (hunit _ m2 _ m2') (hunit _ m3 _ m3') (hunit _ m4 _ m4'))

/-! ## The conversion to `channel` -/

/-- The conversion to `channel` is defined exactly for the values in `(-1, 256)`. -/
theorem to_channel_isSome_iff (x : α) : (to_channel x).isSome ↔ -1 < x ∧ x < 256 := by
  unfold to_channel truncate
  by_cases hx : 0 ≤ x
  · simp only [if_pos hx]
    have h0 : 0 ≤ ⌊x⌋ := Int.floor_nonneg.2 hx
    have h1 : ⌊x⌋ ≤ 255 ↔ x < 256 := by
      rw [← Int.lt_add_one_iff, Int.floor_lt]; norm_num
    by_cases h2 : x < 256
    · simp [h0, h1.2 h2, h2]; linarith
    · simp [h0, h2, mt h1.1 h2]
  · simp only [if_neg hx]
    have hx' : x < 0 := not_le.1 hx
    have h0 : 0 ≤ ⌈x⌉ ↔ -1 < x := by
      rw [← Int.sub_one_lt_iff, Int.lt_ceil]; norm_num
    have h1 : ⌈x⌉ ≤ 255 := by
      have : ⌈x⌉ ≤ 0 := Int.ceil_le.2 (by simpa using hx'.le)
      omega
    by_cases h2 : -1 < x
    · simp [h0.2 h2, h1, h2]; linarith
    · simp [h2, mt h0.1 h2]

theorem to_channel_of_range (x : α) (h0 : 0 ≤ x) (h1 : x < 256) :
    to_channel x = some ⌊x⌋.toNat ∧ 0 ≤ ⌊x⌋ ∧ ⌊x⌋ ≤ 255 := by
  have f0 : 0 ≤ ⌊x⌋ := Int.floor_nonneg.2 h0
  have f1 : ⌊x⌋ ≤ 255 := by
    rw [← Int.lt_add_one_iff, Int.floor_lt]; norm_num; exact h1
  refine ⟨?_, f0, f1⟩
  unfold to_channel truncate
  rw [if_pos h0, if_pos ⟨f0, f1⟩]

/-! ## The pixels of `get_img_vec` -/

/-- On a lattice of unit vectors every coordinate pair in range has a pixel, the floor of the
remapped noise value, and it is at most `255`. -/
theorem pixel_eq (g : grid_2d α) (hrows : g.grid.length = ⌈g.grid_side⌉.toNat)
    (hcols : ∀ row, row ∈ g.grid → row.length = ⌈g.grid_side⌉.toNat)
    (hunit : ∀ row, row ∈ g.grid → ∀ v, v ∈ row → v.v1 ^ 2 + v.v2 ^ 2 = 1) (r c : α)
    (hr0 : 0 ≤ r) (hr1 : r < g.grid_side - 1) (hc0 : 0 ≤ c) (hc1 : c < g.grid_side - 1) :
    ∃ d, g.get_coord_val r c = some d ∧ g.pixel r c = some ⌊to_greyscale d⌋.toNat ∧
      ⌊to_greyscale d⌋.toNat ≤ 255 := by
  obtain ⟨d, hd, d0, d1⟩ := get_coord_val_bounded g hrows hcols hunit r c hr0 hr1 hc0 hc1
  obtain ⟨x0, x1⟩ := to_greyscale_range d d0 d1
  obtain ⟨hch, f0, f1⟩ := to_channel_of_range (to_greyscale d) x0 x1
  refine ⟨d, hd, ?_, by omega⟩
  unfold pixel
  rw [hd, Option.some_bind, hch]

/-! ## The lattice of the constructor -/

theorem ceil_side_ge_two (W : Nat) (hW : 1 ≤ W) : 2 ≤ ⌈(W : α) / GRID_SCALE + 1⌉ := by
  have h1 : (1 : α) ≤ (W : α) := by exact_mod_cast hW
  have h2 : ((1 : Int) : α) < (W : α) / GRID_SCALE + 1 := by
    unfold GRID_SCALE
    have : (0 : α) < (W : α) / 16 := by positivity
    push_cast
    linarith
  have := Int.lt_ceil.2 h2
  omega

theorem ctor_rows {σ : Type} (lib : stdlib α σ) (W : Nat) (seed : Option String) (rd : Nat) :
    (grid_2d.grid_2d lib W seed rd).grid.length
      = ⌈(grid_2d.grid_2d lib W seed rd).grid_side⌉.toNat := by
  simp [grid_2d.grid_2d, fill_grid_length]

theorem ctor_cols {σ : Type} (lib : stdlib α σ) (W : Nat) (seed : Option String) (rd : Nat) :
    ∀ r, r ∈ (grid_2d.grid_2d lib W seed rd).grid →
      r.length = ⌈(grid_2d.grid_2d lib W seed rd).grid_side⌉.toNat := by
  intro r hr
  refine fill_grid_row_length lib _ _ _ ?_ r hr
  intro r1 h1
  rw [List.eq_of_mem_replicate h1, List.length_replicate]
  rfl

theorem ctor_unit {σ : Type} (lib : stdlib α σ)
    (hdist : ∀ s, -1 ≤ (lib.dist s).1 ∧ (lib.dist s).1 ≤ 1)
    (hsqrt : ∀ x, 0 ≤ x → lib.sqrt x * lib.sqrt x = x)
    (W : Nat) (seed : Option String) (rd : Nat) :
    ∀ r, r ∈ (grid_2d.grid_2d lib W seed rd).grid → ∀ v, v ∈ r → v.v1 ^ 2 + v.v2 ^ 2 = 1 :=
  fun r hr => fill_grid_unit lib hdist hsqrt _ _ r hr

/-- For a width `W ≥ 1` the lattice of the constructor has a row, and the row has a cell. -/
theorem ctor_has_cell {σ : Type} (lib : stdlib α σ) (W : Nat) (seed : Option String) (rd : Nat)
    (hW : 1 ≤ W) :
    ∃ (row : List (vec_2d α)) (v : vec_2d α),
      row ∈ (grid_2d.grid_2d lib W seed rd).grid ∧ v ∈ row := by
  have h2 : 2 ≤ ⌈(grid_2d.grid_2d lib W seed rd).grid_side⌉ := ceil_side_ge_two W hW
  have hrows := ctor_rows lib W seed rd
  obtain ⟨row, hrow⟩ := List.exists_mem_of_length_pos
    (show 0 < (grid_2d.grid_2d lib W seed rd).grid.length by omega)
  have hcols := ctor_cols lib W seed rd row hrow
  obtain ⟨v, hv⟩ := List.exists_mem_of_length_pos (show 0 < row.length by omega)
  exact ⟨row, v, hrow, hv⟩

end floor_facts

section cell_facts

open grid_2d

/-! ## The cell formula of `get_coord_val` -/

/-- The member `get_coord_val` evaluates the formula of the cell of its floors at its two
fractional distances. -/
theorem get_coord_val_eq_cell_formula {α : Type} [LinearOrderedField α] [FloorRing α]
    (g : grid_2d α) (r c : α) :
    g.get_coord_val r c = cell_formula g ⌊r⌋ ⌊c⌋ (r - ⌊r⌋) (c - ⌊c⌋) := rfl

/-- The value of the cell formula when the four lookups succeed. -/
theorem cell_formula_of_lookups {α : Type} [LinearOrderedField α] (g : grid_2d α) (i j : Int)
    (a b : α) (tl tr bl br : vec_2d α) (h1 : g.index i j = some tl)
    (h2 : g.index i (j + 1) = some tr) (h3 : g.index (i + 1) j = some bl)
    (h4 : g.index (i + 1) (j + 1) = some br) :
    cell_formula g i j a b = some (interp
      (interp ((top_left_dist a b).dot tl) ((top_right_dist a b).dot tr) b)
      (interp ((bottom_left_dist a b).dot bl) ((bottom_right_dist a b).dot br) b) a) := by
  simp only [cell_formula, h1, h2, h3, h4]

/-- The four lookups of a cell with both corners' indices below `n` succeed. -/
theorem cell_lookups {α : Type} (g : grid_2d α) (n : Nat) (hrows : g.grid.length = n)
    (hcols : ∀ row, row ∈ g.grid → row.length = n) (i j : Int)
    (hi0 : 0 ≤ i) (hi1 : i + 1 < n) (hj0 : 0 ≤ j) (hj1 : j + 1 < n) :
    ∃ tl tr bl br : vec_2d α, g.index i j = some tl ∧ g.index i (j + 1) = some tr ∧
      g.index (i + 1) j = some bl ∧ g.index (i + 1) (j + 1) = some br := by
  obtain ⟨tl, h1, -⟩ := index_some g n hrows hcols i j hi0 (by omega) hj0 (by omega)
  obtain ⟨tr, h2, -⟩ := index_some g n hrows hcols i (j + 1) hi0 (by omega) (by omega) hj1
  obtain ⟨bl, h3, -⟩ := index_some g n hrows hcols (i + 1) j (by omega) hi1 hj0 (by omega)
  obtain ⟨br, h4, -⟩ := index_some g n hrows hcols (i + 1) (j + 1) (by omega) hi1 (by omega) hj1
  exact ⟨tl, tr, bl, br, h1, h2, h3, h4⟩

/-- The four distance macros at a point `(r, c)` of the cell `(i, j)`, in terms of the
corners. -/
theorem dist_macros_eq {α : Type} [LinearOrderedField α] (i j : Int) (r c : α) :
    top_left_dist (r - i) (c - j) = ⟨(i : α) - r, c - (j : α)⟩ ∧
    top_right_dist (r - i) (c - j) = ⟨(i : α) - r, c - ((j + 1 : Int) : α)⟩ ∧
    bottom_left_dist (r - i) (c - j) = ⟨((i + 1 : Int) : α) - r, c - (j : α)⟩ ∧
    bottom_right_dist (r - i) (c - j)
      = ⟨((i + 1 : Int) : α) - r, c - ((j + 1 : Int) : α)⟩ := by
  have hi : ((i + 1 : Int) : α) - r = 1 - (r - i) := by push_cast; ring
  have hj : c - ((j + 1 : Int) : α) = c - j - 1 := by push_cast; ring
  have hn : (i : α) - r = -(r - i) := by ring
  rw [hi, hj, hn]
  exact ⟨rfl, rfl, rfl, rfl⟩

/-- The noise value `0` is remapped to a value of floor `127`. -/
theorem to_greyscale_zero_floor {α : Type} [LinearOrderedField α] [FloorRing α] :
    ⌊to_greyscale (0 : α)⌋ = 127 ∧ to_channel (to_greyscale (0 : α)) = some 127 := by
  have h : ⌊to_greyscale (0 : α)⌋ = 127 := by
    rw [Int.floor_eq_iff]; unfold to_greyscale BEFORE_128; norm_num
  refine ⟨h, ?_⟩
  have h0 : (0 : α) ≤ to_greyscale 0 := by unfold to_greyscale BEFORE_128; norm_num
  have h1 : to_greyscale (0 : α) < 256 := by unfold to_greyscale BEFORE_128; norm_num
  rw [(to_channel_of_range _ h0 h1).1, h]
  rfl

/-! ## The order in which the constructor fills the cells -/

theorem cell_state_eq_iterate {α : Type} [LinearOrderedField α] {σ : Type} (lib : stdlib α σ)
    (generator : σ) (k : Nat) :
    cell_state lib generator k
      = (fun s => (fill_cell lib s).2)^[k] ((lib.mt generator).2, (lib.mt generator).1, 0) := by
  induction k with
  | zero => rfl
  | succ k ih => rw [Function.iterate_succ_apply', ← ih]; rfl

theorem fill_row_trace {α : Type} [LinearOrderedField α] {σ : Type} (lib : stdlib α σ) :
    ∀ (r : List (vec_2d α)) (st : σ × Nat × Nat),
      (fill_row lib r st).2 = (fun s => (fill_cell lib s).2)^[r.length] st ∧
      ∀ b, b < r.length →
        (fill_row lib r st).1[b]? = some (fill_cell lib ((fun s => (fill_cell lib s).2)^[b] st)).1 := by
  intro r
  induction r with
  | nil => intro st; exact ⟨rfl, fun b hb => absurd hb (Nat.not_lt_zero b)⟩
  | cons v r ih =>
      intro st
      obtain ⟨h1, h2⟩ := ih (fill_cell lib st).2
      refine ⟨?_, ?_⟩
      · rw [List.length_cons, Function.iterate_succ_apply, ← h1]; rfl
      · intro b hb
        cases b with
        | zero => simp [fill_row]
        | succ b =>
            rw [Function.iterate_succ_apply, ← h2 b (by simpa using hb)]
            simp [fill_row]

theorem fill_grid_trace {α : Type} [LinearOrderedField α] {σ : Type} (lib : stdlib α σ)
    (n : Nat) :
    ∀ (rows : List (List (vec_2d α))) (st : σ × Nat × Nat), (∀ r, r ∈ rows → r.length = n) →
      (fill_grid lib rows st).2 = (fun s => (fill_cell lib s).2)^[rows.length * n] st ∧
      ∀ a b, a < rows.length → b < n →
        ∃ row, (fill_grid lib rows st).1[a]? = some row ∧
          row[b]? = some (fill_cell lib ((fun s => (fill_cell lib s).2)^[a * n + b] st)).1 := by
  intro rows
  induction rows with
  | nil => intro st _; exact ⟨by simp [fill_grid], fun a b ha _ => absurd ha (Nat.not_lt_zero a)⟩
  | cons r rows ih =>
      intro st hlen
      have hr : r.length = n := hlen r (List.mem_cons_self r rows)
      obtain ⟨r1, r2⟩ := fill_row_trace lib r st
      rw [hr] at r1
      obtain ⟨h1, h2⟩ := ih (fill_row lib r st).2 (fun x hx => hlen x (List.mem_cons_of_mem r hx))
      refine ⟨?_, ?_⟩
      · have e : (r :: rows).length * n = rows.length * n + n := by
          rw [List.length_cons, Nat.succ_mul]
        rw [e, Function.iterate_add_apply, ← r1, ← h1]; rfl
      · intro a b ha hb
        cases a with
        | zero =>
            refine ⟨(fill_row lib r st).1, by simp [fill_grid], ?_⟩
            rw [r2 b (by omega)]; simp
        | succ a =>
            obtain ⟨row, hrow, hcell⟩ := h2 a b (by simpa using ha) hb
            refine ⟨row, by simpa [fill_grid] using hrow, ?_⟩
            have e : (a + 1) * n + b = (a * n + b) + n := by rw [Nat.succ_mul]; omega
            rw [hcell, r1, e, Function.iterate_add_apply _ (a * n + b) n]

/-- The cell `(a, b)` of the constructor's lattice is the one filled in the state reached after
`a * n + b` passes of the body, `n` being the side of the lattice. -/
theorem ctor_index_eq {α : Type} [LinearOrderedField α] [FloorRing α] {σ : Type}
    (lib : stdlib α σ) (W : Nat) (seed : Option String) (rd : Nat) (n a b : Nat)
    (hn : n = ⌈(grid_2d.grid_2d lib W seed rd).grid_side⌉.toNat) (ha : a < n) (hb : b < n) :
    (grid_2d.grid_2d lib W seed rd).index a b
      = some (fill_cell lib
          (cell_state lib (lib.mt19937 (seed_value lib seed rd).1) (a * n + b))).1 := by
  have hside : ⌈(W : α) / GRID_SCALE + 1⌉.toNat = n := hn.symm
  obtain ⟨-, htrace⟩ := fill_grid_trace lib n (List.replicate n (List.replicate n vec_2d.zero))
    ((lib.mt (lib.mt19937 (seed_value lib seed rd).1)).2,
      (lib.mt (lib.mt19937 (seed_value lib seed rd).1)).1, 0)
    (fun r hr => by rw [List.eq_of_mem_replicate hr, List.length_replicate])
  obtain ⟨row, hrow, hcell⟩ := htrace a b (by rw [List.length_replicate]; exact ha) hb
  rw [cell_state_eq_iterate]
  simp only [index, grid_2d.grid_2d, hside, Int.natCast_nonneg, and_self, if_true,
    Int.toNat_ofNat, List.get?_eq_getElem?, hrow, Option.some_bind, hcell]

/-- The bookkeeping of the sign bits: before the cell with row-major index `k` is filled,
`(k - 1) / 32 + 1` words have been drawn, `counter` counts the bits used of the last word and
`random_bits` holds that word shifted right by `counter`. -/
theorem cell_state_invariant {α : Type} [LinearOrderedField α] {σ : Type} (lib : stdlib α σ)
    (generator : σ) :
    ∀ k, ∃ w, (direct_words lib generator k).length = (k - 1) / 32 + 1 ∧
      (direct_words lib generator k)[(k - 1) / 32]? = some w ∧
      (cell_state lib generator k).2.2 = k - 32 * ((k - 1) / 32) ∧
      (cell_state lib generator k).2.1 = w / 2 ^ (k - 32 * ((k - 1) / 32)) := by
  intro k
  induction k with
  | zero => exact ⟨(lib.mt generator).1, rfl, rfl, rfl, by simp [cell_state]⟩
  | succ k ih =>
      obtain ⟨w, hlen, hw, hc, hb⟩ := ih
      by_cases h32 : (cell_state lib generator k).2.2 = 32
      · have hk : k - 32 * ((k - 1) / 32) = 32 := by rw [← hc]; exact h32
        have e1 : (k + 1 - 1) / 32 = (k - 1) / 32 + 1 := by omega
        have e2 : k + 1 - 32 * ((k + 1 - 1) / 32) = 1 := by omega
        refine ⟨(lib.mt (cell_state lib generator k).1).1, ?_, ?_, ?_, ?_⟩
        · simp only [direct_words, if_pos h32, List.length_append, List.length_singleton, hlen, e1]
        · simp only [direct_words, if_pos h32, e1, ← hlen]
          exact List.getElem?_concat_length _ _
        · simp only [cell_state, fill_cell, if_pos h32]
          rw [e2]
        · simp only [cell_state, fill_cell, if_pos h32]
          rw [e2, pow_one]
      · have hk : k - 32 * ((k - 1) / 32) ≠ 32 := by rw [← hc]; exact h32
        have e1 : (k + 1 - 1) / 32 = (k - 1) / 32 := by omega
        have e2 : k + 1 - 32 * ((k + 1 - 1) / 32) = k - 32 * ((k - 1) / 32) + 1 := by omega
        refine ⟨w, ?_, ?_, ?_, ?_⟩
        · simp only [direct_words, if_neg h32, hlen, e1]
        · simp only [direct_words, if_neg h32, e1, hw]
        · simp only [cell_state, fill_cell, if_neg h32]
          rw [e2, hc]
        · simp only [cell_state, fill_cell, if_neg h32]
          rw [e2, hb, pow_succ, Nat.div_div_eq_div_mul]

/-- The sign bit of the cell with row-major index `i` is bit `i % 32` of the word number
`i / 32`; a word is drawn in the pass of cell `i` exactly when `0 < i` and `i % 32 = 0`. -/
theorem cell_sign_bit {α : Type} [LinearOrderedField α] {σ : Type} (lib : stdlib α σ)
    (generator : σ) (i : Nat) :
    ∃ w, (direct_words lib generator (i + 1))[i / 32]? = some w ∧
      (direct_words lib generator (i + 1)).length = i / 32 + 1 ∧
      (fill_cell lib (cell_state lib generator i)).1.v2
        = (if w / 2 ^ (i % 32) % 2 = 1 then 1 else -1)
          * lib.sqrt (1 - (fill_cell lib (cell_state lib generator i)).1.v1
              * (fill_cell lib (cell_state lib generator i)).1.v1) ∧
      direct_words lib generator (i + 1)
        = (if 0 < i ∧ i % 32 = 0 then direct_words lib generator i ++ [w]
            else direct_words lib generator i) := by
  obtain ⟨w0, hlen, hw, hc, hb⟩ := cell_state_invariant lib generator i
  obtain ⟨w, hlen1, hw1, -, -⟩ := cell_state_invariant lib generator (i + 1)
  have e0 : (i + 1 - 1) / 32 = i / 32 := by simp
  rw [e0] at hlen1 hw1
  refine ⟨w, hw1, hlen1, ?_, ?_⟩
  · by_cases h32 : (cell_state lib generator i).2.2 = 32
    · have hk : i - 32 * ((i - 1) / 32) = 32 := by rw [← hc]; exact h32
      have hmod : i % 32 = 0 := by omega
      have hidx : i / 32 = (direct_words lib generator i).length := by rw [hlen]; omega
      have hw' : w = (lib.mt (cell_state lib generator i).1).1 := by
        have := hw1
        simp only [direct_words, if_pos h32, hidx, List.getElem?_concat_length,
          Option.some.injEq] at this
        exact this.symm
      simp only [fill_cell, if_pos h32]
      rw [hmod, pow_zero, Nat.div_one, hw']
    · have hk : i - 32 * ((i - 1) / 32) ≠ 32 := by rw [← hc]; exact h32
      have hmod : i - 32 * ((i - 1) / 32) = i % 32 := by omega
      have hidx : (i - 1) / 32 = i / 32 := by omega
      have hw' : w = w0 := by
        have := hw1
        simp only [direct_words, if_neg h32, ← hidx, hw, Option.some.injEq] at this
        exact this.symm
      simp only [fill_cell, if_neg h32]
      rw [hb, hmod, hw']
  · by_cases h32 : (cell_state lib generator i).2.2 = 32
    · have hk : i - 32 * ((i - 1) / 32) = 32 := by rw [← hc]; exact h32
      have hcond : 0 < i ∧ i % 32 = 0 := by omega
      have hidx : i / 32 = (direct_words lib generator i).length := by rw [hlen]; omega
      have hw' : w = (lib.mt (cell_state lib generator i).1).1 := by
        have := hw1
        simp only [direct_words, if_pos h32, hidx, List.getElem?_concat_length,
          Option.some.injEq] at this
        exact this.symm
      rw [if_pos hcond, hw']
      simp only [direct_words, if_pos h32]
    · have hk : i - 32 * ((i - 1) / 32) ≠ 32 := by rw [← hc]; exact h32
      have hcond : ¬ (0 < i ∧ i % 32 = 0) := by omega
      rw [if_neg hcond]
      simp only [direct_words, if_neg h32]

/-! ## The layout of the pixel buffer -/

theorem flatten_uniform_getElem {γ : Type} (n : Nat) (f : Nat → Nat → γ) :
    ∀ (m i j : Nat), i < m → j < n →
      (((List.range m).map (fun i => (List.range n).map (fun j => f i j))).flatten)[i * n + j]?
        = some (f i j) := by
  intro m
  induction m with
  | zero => intro i j hi _; exact absurd hi (Nat.not_lt_zero i)
  | succ m ih =>
      intro i j hi hj
      have hlen : (((List.range m).map
          (fun i => (List.range n).map (fun j => f i j))).flatten).length = m * n := by
        rw [List.length_flatten, List.map_map]
        have : (List.length ∘ fun i => (List.range n).map (fun j => f i j)) = fun _ => n := by
          funext i; simp
        rw [this, List.map_const', List.sum_replicate]
        simp
      rw [List.range_succ, List.map_append, List.flatten_append]
      by_cases him : i < m
      · have hlt : i * n + j < m * n := by
          calc i * n + j < i * n + n := by omega
            _ = (i + 1) * n := by rw [Nat.succ_mul]
            _ ≤ m * n := Nat.mul_le_mul_right n him
        rw [List.getElem?_append_left (by rw [hlen]; exact hlt)]
        exact ih i j him hj
      · have hi' : i = m := by omega
        subst hi'
        rw [List.getElem?_append_right (by rw [hlen]; omega), hlen]
        simp [List.getElem?_range hj]

end cell_facts

section double_facts

open grid_2d

set_option maxRecDepth 100000

/-! ## Rounding to `double` -/

theorem two_pow_eq_zpow (k : Int) : two_pow k = (2 : ℚ) ^ k := by
  unfold two_pow
  by_cases hk : 0 ≤ k
  · rw [if_pos hk]
    obtain ⟨n, rfl⟩ := Int.eq_ofNat_of_zero_le hk
    simp
  · rw [if_neg hk]
    obtain ⟨n, hn⟩ := Int.eq_ofNat_of_zero_le (show 0 ≤ -k by omega)
    have hk' : k = -(n : Int) := by omega
    rw [hn, hk']
    simp

theorem binary_digits_aux_spec :
    ∀ (fuel n : Nat), n ≤ fuel → 0 < n →
      2 ^ (binary_digits_aux fuel n - 1) ≤ n ∧ n < 2 ^ binary_digits_aux fuel n ∧
        0 < binary_digits_aux fuel n := by
  intro fuel
  induction fuel with
  | zero => intro n h0 h1; omega
  | succ f ih =>
      intro n hn hpos
      rw [binary_digits_aux, if_neg (by omega)]
      by_cases h2 : n / 2 = 0
      · have h1 : n = 1 := by omega
        subst h1
        cases f with
        | zero => simp [binary_digits_aux]
        | succ f => simp [binary_digits_aux]
      · obtain ⟨a, b, c⟩ := ih (n / 2) (by omega) (by omega)
        refine ⟨?_, ?_, by omega⟩
        · have e : binary_digits_aux f (n / 2) + 1 - 1 = (binary_digits_aux f (n / 2) - 1) + 1 := by
            omega
          rw [e, pow_succ]
          omega
        · rw [pow_succ]
          omega

theorem binary_digits_spec (n : Nat) (hn : 0 < n) :
    2 ^ (binary_digits n - 1) ≤ n ∧ n < 2 ^ binary_digits n ∧ 0 < binary_digits n :=
  binary_digits_aux_spec n n (le_refl n) hn

/-- The binary exponent is the exponent of the binade of `x`. -/
theorem double_exponent_spec (x : ℚ) (hx : x ≠ 0) :
    (2 : ℚ) ^ double_exponent x ≤ |x| ∧ |x| < (2 : ℚ) ^ (double_exponent x + 1) := by
  have hnum : 0 < x.num.natAbs := Int.natAbs_pos.2 (Rat.num_ne_zero.2 hx)
  obtain ⟨a1, a2, a3⟩ := binary_digits_spec _ hnum
  obtain ⟨b1, b2, b3⟩ := binary_digits_spec _ x.den_pos
  set a := binary_digits x.num.natAbs with ha
  set b := binary_digits x.den with hb
  have hden : (0 : ℚ) < x.den := by exact_mod_cast x.den_pos
  have habs : |x| = (x.num.natAbs : ℚ) / x.den := by
    conv_lhs => rw [← Rat.num_div_den x]
    rw [abs_div, abs_of_pos hden]
    congr 1
    rw [Nat.cast_natAbs, Int.cast_abs]
  have A1 : (2 : ℚ) ^ (a - 1) ≤ (x.num.natAbs : ℚ) := by exact_mod_cast a1
  have A2 : (x.num.natAbs : ℚ) < (2 : ℚ) ^ a := by exact_mod_cast a2
  have B1 : (2 : ℚ) ^ (b - 1) ≤ (x.den : ℚ) := by exact_mod_cast b1
  have B2 : (x.den : ℚ) < (2 : ℚ) ^ b := by exact_mod_cast b2
  have two_ne : (2 : ℚ) ≠ 0 := by norm_num
  -- the two candidate exponents
  have low : (2 : ℚ) ^ ((a : Int) - b - 1) ≤ |x| := by
    rw [habs, le_div_iff₀ hden]
    have e : (2 : ℚ) ^ ((a : Int) - b - 1) = (2 : ℚ) ^ (a - 1) / 2 ^ b := by
      rw [show (a : Int) - b - 1 = ((a - 1 : Nat) : Int) - (b : Int) by omega, zpow_sub₀ two_ne]
      simp
    rw [e, div_mul_eq_mul_div, div_le_iff₀ (by positivity)]
    have : (2 : ℚ) ^ (a - 1) * x.den ≤ (2 : ℚ) ^ (a - 1) * 2 ^ b :=
      mul_le_mul_of_nonneg_left B2.le (by positivity)
    have : (2 : ℚ) ^ (a - 1) * 2 ^ b ≤ (x.num.natAbs : ℚ) * 2 ^ b :=
      mul_le_mul_of_nonneg_right A1 (by positivity)
    linarith
  have high : |x| < (2 : ℚ) ^ ((a : Int) - b + 1) := by
    rw [habs, div_lt_iff₀ hden]
    have e : (2 : ℚ) ^ ((a : Int) - b + 1) = (2 : ℚ) ^ a / 2 ^ (b - 1) := by
      rw [show (a : Int) - b + 1 = (a : Int) - ((b - 1 : Nat) : Int) by omega, zpow_sub₀ two_ne]
      simp
    rw [e, div_mul_eq_mul_div, lt_div_iff₀ (by positivity)]
    have : (x.num.natAbs : ℚ) * 2 ^ (b - 1) < (2 : ℚ) ^ a * 2 ^ (b - 1) :=
      mul_lt_mul_of_pos_right A2 (by positivity)
    have : (2 : ℚ) ^ a * 2 ^ (b - 1) ≤ (2 : ℚ) ^ a * x.den :=
      mul_le_mul_of_nonneg_left B1 (by positivity)
    linarith
  unfold double_exponent
  rw [← ha, ← hb, two_pow_eq_zpow]
  by_cases hc : (2 : ℚ) ^ ((a : Int) - b) ≤ |x|
  · rw [if_pos hc]
    exact ⟨hc, high⟩
  · rw [if_neg hc]
    refine ⟨low, ?_⟩
    rw [show (a : Int) - b - 1 + 1 = (a : Int) - b by ring]
    exact not_le.1 hc

/-- The binade of `x` determines its binary exponent. -/
theorem double_exponent_eq (x : ℚ) (e : Int) (h1 : (2 : ℚ) ^ e ≤ |x|) (h2 : |x| < (2 : ℚ) ^ (e + 1)) :
    double_exponent x = e := by
  have hx : x ≠ 0 := by
    intro h0
    rw [h0, abs_zero] at h1
    exact absurd h1 (not_le.2 (by positivity))
  obtain ⟨s1, s2⟩ := double_exponent_spec x hx
  have one_lt : (1 : ℚ) < 2 := by norm_num
  have c1 : double_exponent x < e + 1 :=
    (zpow_lt_zpow_iff_right₀ one_lt).1 (lt_of_le_of_lt s1 h2)
  have c2 : e < double_exponent x + 1 :=
    (zpow_lt_zpow_iff_right₀ one_lt).1 (lt_of_le_of_lt h1 s2)
  omega

theorem round_half_even_eq (y : ℚ) (m : Int) (h1 : (m : ℚ) - 1 / 2 < y) (h2 : y < m + 1 / 2) :
    round_half_even y = m := by
  unfold round_half_even
  by_cases hy : (m : ℚ) ≤ y
  · have hf : ⌊y⌋ = m := by
      rw [Int.floor_eq_iff]; constructor
      · exact hy
      · linarith
    rw [hf, if_pos (by linarith)]
  · have hy' : y < m := not_le.1 hy
    have hf : ⌊y⌋ = m - 1 := by
      rw [Int.floor_eq_iff]; push_cast; constructor
      · linarith
      · linarith
    rw [hf]
    push_cast
    rw [if_neg (by linarith), if_pos (by linarith)]
    ring

/-- The spacing of the `double`s in the binade of `x`, when `|x| * 2^k` lies in
`[2^52, 2^53)`: it is `2^-k`.  (`s` is the sign of `x`.) -/
theorem double_spacing_eq (x : ℚ) (s : ℚ) (k : Nat) (hs : s = 1 ∨ s = -1) (hk : k ≤ 1074)
    (h1 : 2 ^ 52 ≤ s * (x * 2 ^ k)) (h2 : s * (x * 2 ^ k) < 2 ^ 53) :
    double_spacing x = 1 / 2 ^ k := by
  have habs : |x| = s * x := by
    rcases hs with rfl | rfl
    · have : 0 < x * 2 ^ k := by linarith [show (0 : ℚ) < 2 ^ 52 by positivity]
      have hx : 0 < x := by
        by_contra hcon
        have : x * 2 ^ k ≤ 0 := mul_nonpos_of_nonpos_of_nonneg (not_lt.1 hcon) (by positivity)
        linarith
      rw [abs_of_pos hx]; ring
    · have : x * 2 ^ k < 0 := by linarith [show (0 : ℚ) < 2 ^ 52 by positivity]
      have hx : x < 0 := by
        by_contra hcon
        have : 0 ≤ x * 2 ^ k := mul_nonneg (not_lt.1 hcon) (by positivity)
        linarith
      rw [abs_of_neg hx]; ring
  have hk2 : (0 : ℚ) < 2 ^ k := by positivity
  have two_ne : (2 : ℚ) ≠ 0 := by norm_num
  have hexp : double_exponent x = 52 - (k : Int) := by
    apply double_exponent_eq
    · have e : (2 : ℚ) ^ (52 - (k : Int)) = 2 ^ 52 / 2 ^ k := by
        rw [zpow_sub₀ two_ne]; norm_num
      rw [e, habs, div_le_iff₀ hk2]
      linarith
    · have e : (2 : ℚ) ^ (52 - (k : Int) + 1) = 2 ^ 53 / 2 ^ k := by
        rw [show (52 - (k : Int) + 1) = (53 : Int) - k by ring, zpow_sub₀ two_ne]
        norm_num
      rw [e, habs, lt_div_iff₀ hk2]
      linarith
  unfold double_spacing
  rw [hexp, max_eq_left (by omega), two_pow_eq_zpow]
  rw [show (52 - (k : Int) - 52) = -(k : Int) by ring, zpow_neg, zpow_natCast]
  simp

/-- A certificate for one rounding: `x` lies in the binade whose spacing is `2^-k`, and `m` is
the integer nearest to `x * 2^k` (no tie). -/
theorem round_double_eq (x r s : ℚ) (k : Nat) (m : Int) (hs : s = 1 ∨ s = -1) (hk : k ≤ 1074)
    (h1 : 2 ^ 52 ≤ s * (x * 2 ^ k)) (h2 : s * (x * 2 ^ k) < 2 ^ 53)
    (hm1 : (m : ℚ) - 1 / 2 < x * 2 ^ k) (hm2 : x * 2 ^ k < m + 1 / 2) (hr : r * 2 ^ k = m) :
    round_double x = some r := by
  have hsp := double_spacing_eq x s k hs hk h1 h2
  have hk2 : (0 : ℚ) < 2 ^ k := by positivity
  have hdiv : x / (1 / 2 ^ k) = x * 2 ^ k := by field_simp
  have hre := round_half_even_eq (x * 2 ^ k) m hm1 hm2
  have hval : (m : ℚ) * (1 / 2 ^ k) = r := by
    rw [← hr]; field_simp
  unfold round_double
  rw [hsp, hdiv, hre, hval]
  have hfin : |r| < two_pow 1024 := by
    have hm : |(m : ℚ)| < 2 ^ 53 + 1 := by
      rw [abs_lt]
      rcases hs with rfl | rfl
      · constructor <;> linarith [show (0 : ℚ) < 2 ^ 52 by positivity]
      · constructor <;> linarith [show (0 : ℚ) < 2 ^ 52 by positivity]
    have hr' : r = m / 2 ^ k := by rw [← hr]; field_simp
    rw [hr', abs_div, abs_of_pos hk2, two_pow_eq_zpow]
    have h1k : (1 : ℚ) ≤ 2 ^ k := one_le_pow₀ (by norm_num)
    calc |(m : ℚ)| / 2 ^ k ≤ |(m : ℚ)| := div_le_self (abs_nonneg _) h1k
      _ < 2 ^ 53 + 1 := hm
      _ < (2 : ℚ) ^ (1024 : Int) := by norm_num
  rw [if_pos hfin]

theorem round_double_zero : round_double 0 = some 0 := by
  have h0 : round_half_even 0 = 0 := by simp [round_half_even]
  have hp : (0 : ℚ) < two_pow 1024 := by rw [two_pow_eq_zpow]; positivity
  unfold round_double
  simp only [zero_div, h0, Int.cast_zero, zero_mul, abs_zero, if_pos hp]

/-! ## The sample coordinates in `double` arithmetic -/

/-- The powers of two around the binade `2^m ≤ k < 2^(m+1)`, `m ≤ 52`. -/
theorem binade_pow (m : Nat) (hm : m ≤ 52) :
    (2 : ℚ) ^ (56 - m) = 16 * 2 ^ (52 - m) ∧ (2 : ℚ) ^ m * 2 ^ (52 - m) = 2 ^ 52 ∧
      (1 : ℚ) ≤ 2 ^ (52 - m) := by
  refine ⟨?_, ?_, one_le_pow₀ (by norm_num)⟩
  · rw [show 56 - m = (52 - m) + 4 by omega, pow_add]; norm_num; ring
  · rw [← pow_add, show m + (52 - m) = 52 by omega]

/-- The binade of `k / 16`, scaled to the integers of 53 bits. -/
theorem binade_scaled (k m : Nat) (hm : m ≤ 52) (h1 : 2 ^ m ≤ k) (h2 : k < 2 ^ (m + 1)) :
    (2 : ℚ) ^ 52 ≤ (k : ℚ) * 2 ^ (52 - m) ∧ (k : ℚ) * 2 ^ (52 - m) + 2 ^ (52 - m) ≤ 2 ^ 53 := by
  obtain ⟨-, hAT, hT1⟩ := binade_pow m hm
  have c1 : (2 : ℚ) ^ m ≤ (k : ℚ) := by exact_mod_cast h1
  have c2 : (k : ℚ) + 1 ≤ 2 * (2 : ℚ) ^ m := by
    have : k + 1 ≤ 2 * 2 ^ m := by rw [pow_succ] at h2; omega
    exact_mod_cast this
  have hT0 : (0 : ℚ) ≤ 2 ^ (52 - m) := by positivity
  constructor
  · rw [← hAT]; exact mul_le_mul_of_nonneg_right c1 hT0
  · have := mul_le_mul_of_nonneg_right c2 hT0
    have e : (2 : ℚ) * 2 ^ m * 2 ^ (52 - m) = 2 ^ 53 := by rw [mul_assoc, hAT]; norm_num
    linarith

theorem double_spacing_sixteenth (k m : Nat) (hm : m ≤ 52) (h1 : 2 ^ m ≤ k)
    (h2 : k < 2 ^ (m + 1)) : double_spacing ((k : ℚ) / 16) = 1 / 2 ^ (56 - m) := by
  obtain ⟨hT, -, hT1⟩ := binade_pow m hm
  obtain ⟨s1, s2⟩ := binade_scaled k m hm h1 h2
  have e : (1 : ℚ) * ((k : ℚ) / 16 * 2 ^ (56 - m)) = (k : ℚ) * 2 ^ (52 - m) := by
    rw [hT]; ring
  apply double_spacing_eq _ 1 (56 - m) (Or.inl rfl) (by omega)
  · rw [e]; exact s1
  · rw [e]; linarith

theorem double_exponent_sixteenth (k m : Nat) (hm : m ≤ 52) (h1 : 2 ^ m ≤ k)
    (h2 : k < 2 ^ (m + 1)) : two_pow (double_exponent ((k : ℚ) / 16)) = 2 ^ m / 16 := by
  obtain ⟨hT, hAT, hT1⟩ := binade_pow m hm
  have c1 : (2 : ℚ) ^ m ≤ (k : ℚ) := by exact_mod_cast h1
  have c2 : (k : ℚ) < 2 * (2 : ℚ) ^ m := by
    have : k < 2 * 2 ^ m := by rw [pow_succ] at h2; omega
    exact_mod_cast this
  have two_ne : (2 : ℚ) ≠ 0 := by norm_num
  have habs : |(k : ℚ) / 16| = (k : ℚ) / 16 := abs_of_nonneg (by positivity)
  have hexp : double_exponent ((k : ℚ) / 16) = (m : Int) - 4 := by
    apply double_exponent_eq
    · rw [habs, zpow_sub₀ two_ne, zpow_natCast]; norm_num; linarith
    · rw [habs, show (m : Int) - 4 + 1 = (m : Int) - 3 by ring, zpow_sub₀ two_ne, zpow_natCast]
      norm_num
      rw [div_lt_iff₀ (by norm_num)]
      linarith
  rw [hexp, two_pow_eq_zpow, zpow_sub₀ two_ne, zpow_natCast]
  norm_num

/-- The greatest `double` below `k / 16`, for `k` in the binade `2^m ≤ k < 2^(m+1)`. -/
theorem nextafter_zero_sixteenth (k m : Nat) (hm : m ≤ 52) (h1 : 2 ^ m ≤ k)
    (h2 : k < 2 ^ (m + 1)) :
    nextafter_zero ((k : ℚ) / 16)
      = (k : ℚ) / 16 - (if k = 2 ^ m then 1 / (2 * 2 ^ (56 - m)) else 1 / 2 ^ (56 - m)) := by
  unfold nextafter_zero
  rw [double_exponent_sixteenth k m hm h1 h2, double_spacing_sixteenth k m hm h1 h2]
  by_cases hk : k = 2 ^ m
  · have : (k : ℚ) / 16 = 2 ^ m / 16 := by rw [hk]; push_cast; rfl
    rw [if_pos this, if_pos hk]
    congr 1
    rw [div_div]
    ring
  · have : ¬ ((k : ℚ) / 16 = 2 ^ m / 16) := by
      intro h
      apply hk
      have h' : (k : ℚ) = 2 ^ m := by linarith
      exact_mod_cast h'
    rw [if_neg this, if_neg hk]

/-- Every positive natural number lies in a binade. -/
theorem exists_binade (k : Nat) (hk : 0 < k) : ∃ m, 2 ^ m ≤ k ∧ k < 2 ^ (m + 1) :=
  ⟨Nat.log 2 k, Nat.pow_log_le_self 2 (by omega), Nat.lt_pow_succ_log_self (by norm_num) k⟩

theorem binade_le (k m b : Nat) (h1 : 2 ^ m ≤ k) (hb : k < 2 ^ b) : m < b := by
  by_contra h
  have : 2 ^ b ≤ 2 ^ m := Nat.pow_le_pow_right (by norm_num) (not_lt.1 h)
  omega

/-- The sum `nextafter (k/16, 0) + POINT_INTERVAL` rounds to `nextafter ((k+1)/16, 0)`: the
loop variable of the sampling loops steps from one of these values to the next. -/
theorem sample_step (k : Nat) (hk0 : 0 < k) (hk : k < 2 ^ 52) :
    round_double (nextafter_zero ((k : ℚ) / 16) + POINT_INTERVAL)
      = some (nextafter_zero (((k + 1 : Nat) : ℚ) / 16)) := by
  obtain ⟨m, h1, h2⟩ := exists_binade k hk0
  have hm : m < 52 := binade_le k m 52 h1 hk
  obtain ⟨hT, hAT, hT1⟩ := binade_pow m hm.le
  obtain ⟨s1, s2⟩ := binade_scaled k m hm.le h1 h2
  have hT2 : (2 : ℚ) ≤ 2 ^ (52 - m) := by
    have : (2 : ℚ) ^ 1 ≤ 2 ^ (52 - m) := pow_le_pow_right₀ (by norm_num) (by omega)
    simpa using this
  have hTle : (2 : ℚ) ^ (52 - m) ≤ 2 ^ 52 := pow_le_pow_right₀ (by norm_num) (by omega)
  have hTpos : (0 : ℚ) < 2 ^ (52 - m) := by positivity
  -- the value the sum rounds to
  have hnext : nextafter_zero (((k + 1 : Nat) : ℚ) / 16)
      = ((k : ℚ) + 1) / 16 - 1 / 2 ^ (56 - m) := by
    by_cases hp : k + 1 = 2 ^ (m + 1)
    · rw [nextafter_zero_sixteenth (k + 1) (m + 1) (by omega) (by omega)
        (by rw [hp]; exact Nat.pow_lt_pow_right (by norm_num) (by omega)), if_pos hp]
      have e : (2 : ℚ) * 2 ^ (56 - (m + 1)) = 2 ^ (56 - m) := by
        rw [show 56 - m = (56 - (m + 1)) + 1 by omega, pow_succ]; ring
      rw [e]; push_cast; rfl
    · have h2' : k + 1 < 2 ^ (m + 1) := by omega
      have hne : ¬ (k + 1 = 2 ^ m) := by omega
      rw [nextafter_zero_sixteenth (k + 1) m hm.le (by omega) h2', if_neg hne]
      push_cast; rfl
  rw [hnext, nextafter_zero_sixteenth k m hm.le h1 h2]
  have hscale : ∀ c : ℚ, ((k : ℚ) / 16 - c + POINT_INTERVAL) * 2 ^ (56 - m)
      = (k : ℚ) * 2 ^ (52 - m) + 2 ^ (52 - m) - c * (16 * 2 ^ (52 - m)) - 2 ^ (52 - m) / 2 ^ 53 := by
    intro c
    rw [hT]; unfold POINT_INTERVAL GRID_SCALE; ring
  have hmant : (((((k + 1) * 2 ^ (52 - m) : Nat) : Int) - 1 : Int) : ℚ)
      = (k : ℚ) * 2 ^ (52 - m) + 2 ^ (52 - m) - 1 := by
    push_cast; ring
  have hsmall : (2 : ℚ) ^ (52 - m) / 2 ^ 53 ≤ 1 / 2 := by
    rw [div_le_iff₀ (by positivity)]; linarith
  have hsmall0 : (0 : ℚ) < 2 ^ (52 - m) / 2 ^ 53 := by positivity
  by_cases hp : k = 2 ^ m
  · rw [if_pos hp]
    have hc : (1 : ℚ) / (2 * 2 ^ (56 - m)) * (16 * 2 ^ (52 - m)) = 1 / 2 := by
      rw [hT]; field_simp; ring
    apply round_double_eq _ _ 1 (56 - m) ((((k + 1) * 2 ^ (52 - m) : Nat) : Int) - 1)
      (Or.inl rfl) (by omega)
    · rw [one_mul, hscale, hc]; linarith
    · rw [one_mul, hscale, hc]; linarith
    · rw [hmant, hscale, hc]; linarith
    · rw [hmant, hscale, hc]; linarith
    · rw [hmant, hT]; field_simp; ring
  · rw [if_neg hp]
    have hm1 : 1 ≤ m := by
      by_contra h0
      have : m = 0 := by omega
      subst this
      simp at h1 h2 hp
      omega
    have hTlt : (2 : ℚ) ^ (52 - m) / 2 ^ 53 < 1 / 2 := by
      rw [div_lt_iff₀ (by positivity)]
      have : (2 : ℚ) ^ (52 - m) ≤ 2 ^ 51 := pow_le_pow_right₀ (by norm_num) (by omega)
      linarith
    have hc : (1 : ℚ) / 2 ^ (56 - m) * (16 * 2 ^ (52 - m)) = 1 := by
      rw [hT]; field_simp
    apply round_double_eq _ _ 1 (56 - m) ((((k + 1) * 2 ^ (52 - m) : Nat) : Int) - 1)
      (Or.inl rfl) (by omega)
    · rw [one_mul, hscale, hc]; linarith
    · rw [one_mul, hscale, hc]; linarith
    · rw [hmant, hscale, hc]; linarith
    · rw [hmant, hscale, hc]; linarith
    · rw [hmant, hT]; field_simp; ring

/-- A coordinate of the loops is below `W / 16` exactly while its index is below `W`. -/
theorem sample_double_lt (k W : Nat) (hk : k + 1 < 2 ^ 52) :
    sample_double k < (W : ℚ) / 16 ↔ k < W := by
  obtain ⟨m, h1, h2⟩ := exists_binade (k + 1) (Nat.succ_pos k)
  have hm : m < 52 := binade_le (k + 1) m 52 h1 hk
  have hcast : (((k + 1 : Nat) : ℚ)) = (k : ℚ) + 1 := by push_cast; rfl
  have hpos : (0 : ℚ) < 2 ^ (56 - m) := by positivity
  have h16 : (16 : ℚ) ≤ 2 ^ (56 - m) := by
    have : (2 : ℚ) ^ 4 ≤ 2 ^ (56 - m) := pow_le_pow_right₀ (by norm_num) (by omega)
    linarith
  have hd : (0 : ℚ) < (if k + 1 = 2 ^ m then 1 / (2 * 2 ^ (56 - m)) else 1 / 2 ^ (56 - m)) ∧
      (if k + 1 = 2 ^ m then 1 / (2 * 2 ^ (56 - m)) else 1 / 2 ^ (56 - m)) ≤ (1 : ℚ) / 16 := by
    split_ifs
    · exact ⟨by positivity, one_div_le_one_div_of_le (by norm_num) (by linarith)⟩
    · exact ⟨by positivity, one_div_le_one_div_of_le (by norm_num) (by linarith)⟩
  unfold sample_double
  rw [← hcast, nextafter_zero_sixteenth (k + 1) m hm.le h1 h2, hcast]
  constructor
  · intro h
    by_contra hcon
    have : (W : ℚ) ≤ (k : ℚ) := by exact_mod_cast not_lt.1 hcon
    linarith [hd.2]
  · intro h
    have : (k : ℚ) + 1 ≤ (W : ℚ) := by exact_mod_cast h
    linarith [hd.1]

theorem loop_points_double_succ (bound x : ℚ) (fuel : Nat) :
    loop_points_double bound (fuel + 1) x
      = if x < bound then
          (round_double (x + POINT_INTERVAL)).elim (some [x])
            (fun x1 => (loop_points_double bound fuel x1).map (fun xs => x :: xs))
        else some [] := by
  show (if x < bound then
        match round_double (x + POINT_INTERVAL) with
        | some x1 => (loop_points_double bound fuel x1).map (fun xs => x :: xs)
        | none => some [x]
      else some []) = _
  split_ifs
  · cases round_double (x + POINT_INTERVAL) <;> rfl
  · rfl

theorem for_loop_double_succ {β : Type} (bound x : ℚ) (body : ℚ → β → Option β) (fuel : Nat)
    (s : β) :
    for_loop_double bound body (fuel + 1) x s
      = if x < bound then
          (body x s).bind (fun s1 =>
            (round_double (x + POINT_INTERVAL)).elim (some s1)
              (fun x1 => for_loop_double bound body fuel x1 s1))
        else some s := by
  show (if x < bound then
        (body x s).bind (fun s1 =>
          match round_double (x + POINT_INTERVAL) with
          | some x1 => for_loop_double bound body fuel x1 s1
          | none => some s1)
      else some s) = _
  split_ifs
  · congr 1
    funext s1
    cases round_double (x + POINT_INTERVAL) <;> rfl
  · rfl

/-- The sampling loop in `double` arithmetic visits the coordinates `sample_double k`, in
order, until `W / 16` is reached: started at the coordinate with index `k`, it visits those
with the indices `k, ..., W - 1`. -/
theorem loop_points_double_eq (W : Nat) (hW : W + 1 < 2 ^ 52) :
    ∀ (n k fuel : Nat), k + n = W → n < fuel →
      loop_points_double ((W : ℚ) / 16) fuel (sample_double k)
        = some ((List.range n).map (fun i : Nat => sample_double (k + i))) := by
  intro n
  induction n with
  | zero =>
      intro k fuel hkn hfuel
      obtain ⟨f, rfl⟩ : ∃ f, fuel = f + 1 := ⟨fuel - 1, by omega⟩
      have hx : ¬ (sample_double k < (W : ℚ) / 16) := by
        rw [sample_double_lt k W (by omega)]; omega
      rw [loop_points_double_succ, if_neg hx]
      rfl
  | succ n ih =>
      intro k fuel hkn hfuel
      obtain ⟨f, rfl⟩ : ∃ f, fuel = f + 1 := ⟨fuel - 1, by omega⟩
      have hx : sample_double k < (W : ℚ) / 16 := by
        rw [sample_double_lt k W (by omega)]; omega
      have hstep : round_double (sample_double k + POINT_INTERVAL)
          = some (sample_double (k + 1)) := by
        have := sample_step (k + 1) (Nat.succ_pos k) (by omega)
        unfold sample_double
        have e1 : ((k : ℚ) + 1) / 16 = ((k + 1 : Nat) : ℚ) / 16 := by push_cast; rfl
        have e2 : (((k + 1 : Nat) : ℚ) + 1) / 16 = ((k + 1 + 1 : Nat) : ℚ) / 16 := by
          push_cast; rfl
        rw [e1, e2]
        exact this
      rw [loop_points_double_succ, if_pos hx, hstep, Option.elim_some,
        ih (k + 1) f (by omega) (by omega)]
      simp only [Option.map_some', List.range_succ_eq_map, List.map_cons, List.map_map]
      congr 2
      apply List.map_congr_left
      intro i _
      simp only [Function.comp]
      congr 1
      omega

/-- A loop in `double` arithmetic runs its body on the visited values, in order. -/
theorem for_loop_double_eq_foldlM {β : Type} (bound : ℚ) (body : ℚ → β → Option β) :
    ∀ (fuel : Nat) (x : ℚ) (s : β),
      for_loop_double bound body fuel x s
        = (loop_points_double bound fuel x).bind
            (fun xs => xs.foldlM (fun s1 y => body y s1) s) := by
  intro fuel
  induction fuel with
  | zero => intro x s; rfl
  | succ f ih =>
      intro x s
      rw [for_loop_double_succ, loop_points_double_succ]
      by_cases hx : x < bound
      · rw [if_pos hx, if_pos hx]
        cases hr : round_double (x + POINT_INTERVAL) with
        | none =>
            cases hb : body x s with
            | none => simp [List.foldlM_cons, hb]
            | some s1 => simp [List.foldlM_cons, hb]
        | some x1 =>
            simp only [Option.elim_some]
            cases hb : body x s with
            | none =>
                cases hrec : loop_points_double bound f x1 with
                | none => simp
                | some ys => simp [List.foldlM_cons, hb]
            | some s1 =>
                rw [Option.some_bind, ih x1 s1]
                cases hrec : loop_points_double bound f x1 with
                | none => simp
                | some ys => simp [List.foldlM_cons, hb]
      · rw [if_neg hx, if_neg hx]
        simp

/-- A positive integer below `2^53`, divided by a power of two, is a `double`. -/
theorem round_double_dyadic (n j : Nat) (hn0 : 0 < n) (hn : n < 2 ^ 53) (hj : j ≤ 1000) :
    round_double ((n : ℚ) / 2 ^ j) = some ((n : ℚ) / 2 ^ j) := by
  obtain ⟨m, h1, h2⟩ := exists_binade n hn0
  have hm : m < 53 := binade_le n m 53 h1 hn
  obtain ⟨-, hAT, hT1⟩ := binade_pow m (by omega)
  obtain ⟨s1, s2⟩ := binade_scaled n m (by omega) h1 h2
  have hTpos : (0 : ℚ) < 2 ^ (52 - m) := by positivity
  have hscale : (n : ℚ) / 2 ^ j * 2 ^ (52 - m + j) = (n : ℚ) * 2 ^ (52 - m) := by
    rw [pow_add]; field_simp; ring
  have hmant : (((n * 2 ^ (52 - m) : Nat) : Int) : ℚ) = (n : ℚ) * 2 ^ (52 - m) := by
    push_cast; ring
  apply round_double_eq _ _ 1 (52 - m + j) ((n * 2 ^ (52 - m) : Nat) : Int) (Or.inl rfl)
    (by omega)
  · rw [one_mul, hscale]; exact s1
  · rw [one_mul, hscale]; linarith
  · rw [hmant, hscale]; linarith
  · rw [hmant, hscale]; linarith
  · rw [hmant, hscale]

/-- The member `grid_side` is computed exactly in `double` arithmetic, and so is the bound
`grid_side - 1` of the sampling loops. -/
theorem grid_side_double_eq (W : Nat) (hW0 : 0 < W) (hW : W + 16 < 2 ^ 53) :
    grid_side_double W = some ((W : ℚ) / GRID_SCALE + 1) ∧
      round_double ((W : ℚ) / GRID_SCALE + 1 - 1) = some ((W : ℚ) / 16) := by
  have r1 : round_double (W : ℚ) = some (W : ℚ) := by
    have := round_double_dyadic W 0 hW0 (by omega) (by omega)
    simpa using this
  have r2 : round_double ((W : ℚ) / 16) = some ((W : ℚ) / 16) := by
    have := round_double_dyadic W 4 hW0 (by omega) (by omega)
    norm_num at this
    exact this
  have r3 : round_double ((W : ℚ) / 16 + 1) = some ((W : ℚ) / 16 + 1) := by
    have := round_double_dyadic (W + 16) 4 (by omega) hW (by omega)
    have e : (((W + 16 : Nat) : ℚ)) / 2 ^ 4 = (W : ℚ) / 16 + 1 := by push_cast; ring
    rw [e] at this
    exact this
  constructor
  · unfold grid_side_double double_add GRID_SCALE
    rw [r1, Option.some_bind, r2, Option.some_bind, Option.some_bind, r3]
  · unfold GRID_SCALE
    rw [show (W : ℚ) / 16 + 1 - 1 = (W : ℚ) / 16 by ring, r2]

/-! ## The buffer of the two nested loops -/

/-- The inner loop appends one element for each coordinate: it returns a buffer exactly when
every pixel is defined, and then the buffer is the old one followed by the pixels in order. -/
theorem foldlM_emplace_iff {γ : Type} (px : γ → Option channel) :
    ∀ (cs : List γ) (img out : List channel),
      cs.foldlM (fun acc c => (px c).map (fun p => acc ++ [p])) img = some out ↔
        (∀ c, c ∈ cs → (px c).isSome) ∧ out = img ++ cs.map (fun c => (px c).getD 0) := by
  intro cs
  induction cs with
  | nil =>
      intro img out
      simp only [List.foldlM_nil, List.not_mem_nil, false_implies, implies_true, true_and,
        List.map_nil, List.append_nil]
      constructor
      · intro h; exact (Option.some.inj h).symm
      · intro h; rw [h]; rfl
  | cons c cs ih =>
      intro img out
      rw [List.foldlM_cons]
      cases hpx : px c with
      | none =>
          constructor
          · intro h; simp at h
          · intro h
            have := h.1 c (List.mem_cons_self c cs)
            rw [hpx] at this
            simp at this
      | some p =>
          simp only [Option.map_some', Option.bind_eq_bind, Option.some_bind]
          rw [ih (img ++ [p]) out]
          constructor
          · rintro ⟨h1, h2⟩
            refine ⟨?_, ?_⟩
            · intro d hd
              rcases List.mem_cons.1 hd with rfl | hd
              · rw [hpx]; rfl
              · exact h1 d hd
            · rw [h2, List.map_cons, hpx]; simp
          · rintro ⟨h1, h2⟩
            refine ⟨fun d hd => h1 d (List.mem_cons_of_mem c hd), ?_⟩
            rw [h2, List.map_cons, hpx]; simp

/-- The two nested loops: they return a buffer exactly when every pixel is defined, and then
the buffer lists the pixels row by row. -/
theorem foldlM_rows_iff {γ : Type} (px : γ → γ → Option channel) (cs : List γ) :
    ∀ (rs : List γ) (img out : List channel),
      rs.foldlM (fun acc r => cs.foldlM (fun a c => (px r c).map (fun p => a ++ [p])) acc) img
          = some out ↔
        (∀ r, r ∈ rs → ∀ c, c ∈ cs → (px r c).isSome) ∧
          out = img ++ (rs.map (fun r => cs.map (fun c => (px r c).getD 0))).flatten := by
  intro rs
  induction rs with
  | nil =>
      intro img out
      simp only [List.foldlM_nil, List.not_mem_nil, false_implies, implies_true, true_and,
        List.map_nil, List.flatten_nil, List.append_nil]
      constructor
      · intro h; exact (Option.some.inj h).symm
      · intro h; rw [h]; rfl
  | cons r rs ih =>
      intro img out
      rw [List.foldlM_cons]
      cases hrow : cs.foldlM (fun a c => (px r c).map (fun p => a ++ [p])) img with
      | none =>
          constructor
          · intro h; simp at h
          · intro h
            have := (foldlM_emplace_iff (px r) cs img _).2
              ⟨h.1 r (List.mem_cons_self r rs), rfl⟩
            rw [hrow] at this
            simp at this
      | some mid =>
          obtain ⟨m1, m2⟩ := (foldlM_emplace_iff (px r) cs img mid).1 hrow
          simp only [Option.bind_eq_bind, Option.some_bind]
          rw [ih mid out]
          constructor
          · rintro ⟨h1, h2⟩
            refine ⟨?_, ?_⟩
            · intro d hd
              rcases List.mem_cons.1 hd with rfl | hd
              · exact m1
              · exact h1 d hd
            · rw [h2, m2, List.map_cons, List.flatten_cons, List.append_assoc]
          · rintro ⟨h1, h2⟩
            refine ⟨fun d hd => h1 d (List.mem_cons_of_mem r hd), ?_⟩
            rw [h2, m2, List.map_cons, List.flatten_cons, List.append_assoc]

/-- The pixels of a buffer that lists `n` rows of `n` pixels. -/
theorem rows_buffer {γ : Type} (px : γ → γ → Option channel) (pt : Nat → γ) (n : Nat)
    (img : List channel)
    (h : ((List.range n).map pt).foldlM
        (fun acc r => ((List.range n).map pt).foldlM
          (fun a c => (px r c).map (fun p => a ++ [p])) acc) [] = some img) :
    img.length = n * n ∧
      ∀ i j, i < n → j < n → (px (pt i) (pt j)).isSome ∧ img[i * n + j]? = px (pt i) (pt j) := by
  obtain ⟨h1, h2⟩ := (foldlM_rows_iff px _ _ [] img).1 h
  have e : img = ((List.range n).map (fun i : Nat => (List.range n).map (fun j : Nat =>
      (px (pt i) (pt j)).getD 0))).flatten := by
    rw [h2, List.nil_append, List.map_map]
    congr 1
    apply List.map_congr_left
    intro i _
    simp only [Function.comp, List.map_map]
    rfl
  constructor
  · rw [e]; exact length_flatten_map_map n _
  · intro i j hi hj
    have hs := h1 (pt i) (List.mem_map.2 ⟨i, List.mem_range.2 hi, rfl⟩) (pt j)
      (List.mem_map.2 ⟨j, List.mem_range.2 hj, rfl⟩)
    refine ⟨hs, ?_⟩
    rw [e, flatten_uniform_getElem n _ n i j hi hj]
    obtain ⟨p, hp⟩ := Option.isSome_iff_exists.1 hs
    rw [hp]; rfl

/-- The two nested loops return a buffer when every pixel is defined. -/
theorem rows_buffer_some {γ : Type} (px : γ → γ → Option channel) (pt : Nat → γ) (n : Nat)
    (h : ∀ i j, i < n → j < n → (px (pt i) (pt j)).isSome) :
    ∃ img, ((List.range n).map pt).foldlM
        (fun acc r => ((List.range n).map pt).foldlM
          (fun a c => (px r c).map (fun p => a ++ [p])) acc) [] = some img := by
  refine ⟨_, (foldlM_rows_iff px _ _ [] _).2 ⟨?_, rfl⟩⟩
  intro r hr c hc
  obtain ⟨i, hi, rfl⟩ := List.mem_map.1 hr
  obtain ⟨j, hj, rfl⟩ := List.mem_map.1 hc
  exact h i j (List.mem_range.1 hi) (List.mem_range.1 hj)

/-! ## The buffer of `get_img_vec` in exact arithmetic -/

/-- For a width `W < 2^53`, `get_img_vec` is the two nested loops over the `W` coordinates
`(k + 1) POINT_INTERVAL`. -/
theorem get_img_vec_fold {α : Type} [LinearOrderedField α] [FloorRing α] (g : grid_2d α)
    (W fuel : Nat) (hside : g.grid_side = (W : α) / GRID_SCALE + 1) (hW : W < 2 ^ 53)
    (hfuel : W < fuel) :
    g.get_img_vec W fuel
      = ((List.range W).map (fun k : Nat => ((k : α) + 1) * POINT_INTERVAL)).foldlM
          (fun acc r => ((List.range W).map (fun k : Nat => ((k : α) + 1) * POINT_INTERVAL)).foldlM
            (fun a c => (g.pixel r c).map (fun p => a ++ [p])) acc) [] := by
  have hpts : loop_points (POINT_INTERVAL : α) (g.grid_side - 1) fuel POINT_INTERVAL
      = some ((List.range W).map (fun k : Nat => ((k : α) + 1) * POINT_INTERVAL)) := by
    rw [hside, sample_points_eq (α := α) W fuel hW hfuel]
    congr 1
    apply List.map_congr_left
    intro k _
    ring
  unfold get_img_vec
  rw [for_loop_eq_foldlM, hpts, Option.some_bind]
  congr 1
  funext acc r
  unfold get_img_row
  rw [for_loop_eq_foldlM, hpts, Option.some_bind]
  rfl

/-! ## The buffer of `get_img_vec` in `double` arithmetic -/

/-- The first coordinate of the loops is `POINT_INTERVAL`. -/
theorem sample_double_zero : (POINT_INTERVAL : ℚ) = sample_double 0 := by
  have h := nextafter_zero_sixteenth 1 0 (by norm_num) (by norm_num) (by norm_num)
  unfold sample_double POINT_INTERVAL GRID_SCALE
  norm_num at h ⊢
  rw [h]

/-- For a width `W`, `get_img_vec` in `double` arithmetic is the two nested loops over the `W`
coordinates `sample_double k`. -/
theorem get_img_vec_double_fold (g : grid_2d ℚ) (W fuel : Nat)
    (hside : g.grid_side = (W : ℚ) / GRID_SCALE + 1) (hW0 : 0 < W) (hW : W + 16 < 2 ^ 52)
    (hfuel : W < fuel) :
    get_img_vec_double g W fuel
      = ((List.range W).map sample_double).foldlM
          (fun acc r => ((List.range W).map sample_double).foldlM
            (fun a c => (pixel_double g r c).map (fun p => a ++ [p])) acc) [] := by
  have hP := sample_double_zero
  have hpts : loop_points_double ((W : ℚ) / 16) fuel POINT_INTERVAL
      = some ((List.range W).map sample_double) := by
    rw [hP, loop_points_double_eq W (by omega) W 0 fuel (by omega) hfuel]
    congr 1
    apply List.map_congr_left
    intro k _
    rw [Nat.zero_add]
  unfold get_img_vec_double
  rw [hside, (grid_side_double_eq W hW0 (by omega)).2, Option.some_bind,
    for_loop_double_eq_foldlM, hpts, Option.some_bind]
  congr 1
  funext acc r
  rw [for_loop_double_eq_foldlM, hpts, Option.some_bind]
  rfl

/-! ## Lattices that can be allocated -/

/-- A lattice that fits in a 64-bit address space is built for a width far below `2^52`. -/
theorem construct_some {α : Type} [LinearOrderedField α] [FloorRing α] {σ : Type}
    (lib : stdlib α σ) (memory W : Nat) (seed : Option String) (rd : Nat) (g : grid_2d α)
    (hmem : memory ≤ 2 ^ 64) (h : construct lib memory W seed rd = some g) :
    g = grid_2d.grid_2d lib W seed rd ∧ W + 16 < 2 ^ 52 := by
  unfold construct at h
  split_ifs at h with hfit
  refine ⟨(Option.some.inj h).symm, ?_⟩
  set n := ⌈(W : α) / GRID_SCALE + 1⌉.toNat with hn
  have hn30 : n ≤ 2 ^ 30 := by
    by_contra hcon
    have h1 : 2 ^ 30 + 1 ≤ n := by omega
    have h2 : (2 ^ 30 + 1) * (2 ^ 30 + 1) ≤ n * n := Nat.mul_le_mul h1 h1
    have h3 : 16 * ((2 ^ 30 + 1) * (2 ^ 30 + 1)) ≤ 2 ^ 64 := by omega
    norm_num at h3
  have hceil : (W : α) / GRID_SCALE + 1 ≤ (n : α) := by
    have h0 : (0 : α) ≤ (W : α) / GRID_SCALE + 1 := by unfold GRID_SCALE; positivity
    have h1 : (0 : Int) ≤ ⌈(W : α) / GRID_SCALE + 1⌉ := Int.ceil_nonneg h0
    have h2 : ((n : Int) : α) = ((⌈(W : α) / GRID_SCALE + 1⌉ : Int) : α) := by
      rw [hn, Int.toNat_of_nonneg h1]
    have h3 := Int.le_ceil ((W : α) / GRID_SCALE + 1)
    have h4 : ((n : Int) : α) = (n : α) := by simp
    rw [← h4, h2]
    exact h3
  have hcast : ((W + 16 : Nat) : α) ≤ ((16 * n : Nat) : α) := by
    unfold GRID_SCALE at hceil
    push_cast
    linarith
  have : W + 16 ≤ 16 * n := by exact_mod_cast hcast
  omega

/-! ## Helpers for the claims -/

/-- A width of at most 16 needs a lattice of at most `2 x 2` vectors, 64 bytes. -/
theorem construct_of_le {α : Type} [LinearOrderedField α] [FloorRing α] {σ : Type}
    (lib : stdlib α σ) (memory W : Nat) (seed : Option String) (rd : Nat) (hW : W ≤ 16)
    (hmem : 64 ≤ memory) :
    construct lib memory W seed rd = some (grid_2d.grid_2d lib W seed rd) := by
  have h1 : (W : α) ≤ 16 := by exact_mod_cast hW
  have h2 : ⌈(W : α) / GRID_SCALE + 1⌉ ≤ 2 := by
    rw [Int.ceil_le]
    unfold GRID_SCALE
    push_cast
    have : (W : α) / 16 ≤ 1 := by rw [div_le_iff₀ (by norm_num)]; linarith
    linarith
  have h3 : ⌈(W : α) / GRID_SCALE + 1⌉.toNat ≤ 2 := by omega
  have h4 : ⌈(W : α) / GRID_SCALE + 1⌉.toNat * ⌈(W : α) / GRID_SCALE + 1⌉.toNat ≤ 2 * 2 :=
    Nat.mul_le_mul h3 h3
  unfold construct
  rw [if_pos (by omega)]

/-- The weight of `interp` in `double` arithmetic is exactly `0` at `t = 0` and exactly `1`
at `t = 1`. -/
theorem weight_double_endpoints :
    weight_double (some 0) = some 0 ∧ weight_double (some 1) = some 1 := by decide!

/-- The samples of `get_img_vec` on a lattice built by the constructor, in exact arithmetic:
with draws in `[-1, 1]` and an exact `sqrt` every pixel is the floor of the remapped noise. -/
theorem ctor_pixel {α : Type} [LinearOrderedField α] [FloorRing α] {σ : Type}
    (lib : stdlib α σ) (hdist : ∀ s, -1 ≤ (lib.dist s).1 ∧ (lib.dist s).1 ≤ 1)
    (hsqrt : ∀ x, 0 ≤ x → lib.sqrt x * lib.sqrt x = x)
    (W : Nat) (seed : Option String) (rd : Nat) (i j : Nat) (hi : i < W) (hj : j < W) :
    ∃ d, (grid_2d.grid_2d lib W seed rd).get_coord_val (((i : α) + 1) * POINT_INTERVAL)
        (((j : α) + 1) * POINT_INTERVAL) = some d ∧
      (grid_2d.grid_2d lib W seed rd).pixel (((i : α) + 1) * POINT_INTERVAL)
        (((j : α) + 1) * POINT_INTERVAL) = some ⌊to_greyscale d⌋.toNat ∧
      ⌊to_greyscale d⌋.toNat ≤ 255 := by
  have hin : ∀ k : Nat, k < W → (0 : α) ≤ ((k : α) + 1) * POINT_INTERVAL ∧
      ((k : α) + 1) * POINT_INTERVAL < (grid_2d.grid_2d lib W seed rd).grid_side - 1 := by
    intro k hk
    have e : ((k : α) + 1) * POINT_INTERVAL = POINT_INTERVAL + (k : α) * POINT_INTERVAL := by
      ring
    rw [e]
    refine ⟨?_, sample_below W k hk⟩
    have := POINT_INTERVAL_pos (α := α)
    have : (0 : α) ≤ (k : α) * POINT_INTERVAL := mul_nonneg (Nat.cast_nonneg k) this.le
    linarith
  exact pixel_eq _ (ctor_rows lib W seed rd) (ctor_cols lib W seed rd)
    (ctor_unit lib hdist hsqrt W seed rd) _ _ (hin i hi).1 (hin i hi).2 (hin j hj).1 (hin j hj).2

end double_facts

section claims

open grid_2d

set_option maxRecDepth 100000

/-! ## The claims -/

/-- C1: on a grid built for the width `W ≥ 1` (the allocation of its lattice succeeds on a
machine with at most `2^64` bytes), with the coordinates in exact arithmetic, each of the two
sampling loops of `get_img_vec` runs its body exactly `W` times, at the coordinates
`(k + 1) POINT_INTERVAL`, and `get_img_vec (W)` is the `W * W` passes of `emplace_back` in
row-major order: every buffer it returns has exactly `W * W` elements, it returns one unless
the conversion of a pixel to `channel` is undefined, and no conversion is undefined when the
draws of the distribution lie in `[-1, 1]` and `sqrt` is exact.  In the `double` arithmetic of
the program the bound `grid_side - 1` is computed exactly, the loop runs its body exactly `W`
times as well, and every buffer that `get_img_vec (W)` returns has exactly `W * W` elements.
(`fuel > W` tests of the loop condition.) -/
theorem get_img_vec_length_built {α : Type} [LinearOrderedField α] [FloorRing α]
    {σ : Type} (lib : stdlib α σ) (memory W fuel : Nat) (seed : Option String) (rd : Nat)
    (g : grid_2d α) (hW : 1 ≤ W) (hmem : memory ≤ 2 ^ 64)
    (hbuilt : construct lib memory W seed rd = some g) (hfuel : W < fuel) :
    (∃ xs, loop_points POINT_INTERVAL (g.grid_side - 1) fuel POINT_INTERVAL = some xs ∧
      xs.length = W ∧ ∀ k, k < W → xs[k]? = some (((k : α) + 1) * POINT_INTERVAL)) ∧
    (∀ img, g.get_img_vec W fuel = some img → img.length = W * W) ∧
    ((∀ i j, i < W → j < W →
        (g.pixel (((i : α) + 1) * POINT_INTERVAL) (((j : α) + 1) * POINT_INTERVAL)).isSome) →
      ∃ img, g.get_img_vec W fuel = some img ∧ img.length = W * W) ∧
    ((∀ s, -1 ≤ (lib.dist s).1 ∧ (lib.dist s).1 ≤ 1) →
      (∀ x, 0 ≤ x → lib.sqrt x * lib.sqrt x = x) →
      ∃ img, g.get_img_vec W fuel = some img ∧ img.length = W * W) ∧
    (grid_side_double W = some ((W : ℚ) / GRID_SCALE + 1) ∧
      round_double ((W : ℚ) / GRID_SCALE + 1 - 1) = some ((W : ℚ) / 16) ∧
      (∃ ys, loop_points_double ((W : ℚ) / 16) fuel POINT_INTERVAL = some ys ∧
        ys.length = W) ∧
      ∀ (gd : grid_2d ℚ) (img : List channel), gd.grid_side = (W : ℚ) / GRID_SCALE + 1 →
        get_img_vec_double gd W fuel = some img → img.length = W * W) := by
  obtain ⟨rfl, hW52⟩ := construct_some lib memory W seed rd g hmem hbuilt
  have hW53 : W < 2 ^ 53 := by omega
  have hfold := get_img_vec_fold (grid_2d.grid_2d lib W seed rd) W fuel rfl hW53 hfuel
  have hlen : ∀ img, (grid_2d.grid_2d lib W seed rd).get_img_vec W fuel = some img →
      img.length = W * W := by
    intro img himg
    rw [hfold] at himg
    exact (rows_buffer _ _ W img himg).1
  have hret : (∀ i j, i < W → j < W →
      ((grid_2d.grid_2d lib W seed rd).pixel (((i : α) + 1) * POINT_INTERVAL)
        (((j : α) + 1) * POINT_INTERVAL)).isSome) →
      ∃ img, (grid_2d.grid_2d lib W seed rd).get_img_vec W fuel = some img ∧
        img.length = W * W := by
    intro hpix
    obtain ⟨img, himg⟩ := rows_buffer_some (grid_2d.grid_2d lib W seed rd).pixel
      (fun k : Nat => ((k : α) + 1) * POINT_INTERVAL) W hpix
    rw [← hfold] at himg
    exact ⟨img, himg, hlen img himg⟩
  refine ⟨?_, hlen, hret, ?_, ?_⟩
  · refine ⟨_, sample_points_eq W fuel hW53 hfuel, by simp, ?_⟩
    intro k hk
    rw [List.getElem?_map, List.getElem?_range hk]
    simp only [Option.map_some']
    congr 1
    ring
  · intro hdist hsqrt
    apply hret
    intro i j hi hj
    obtain ⟨d, -, hp, -⟩ := ctor_pixel lib hdist hsqrt W seed rd i j hi hj
    rw [hp]; rfl
  · obtain ⟨g1, g2⟩ := grid_side_double_eq W (by omega) (by omega)
    have hys := loop_points_double_eq W (by omega) W 0 fuel (by omega) hfuel
    rw [← sample_double_zero] at hys
    refine ⟨g1, g2, ⟨_, hys, by simp⟩, ?_⟩
    intro gd img hgd himg
    rw [get_img_vec_double_fold gd W fuel hgd (by omega) hW52 hfuel] at himg
    exact (rows_buffer _ _ W img himg).1

/-- C1, an instance: width `9` over the reals, with `Real.sqrt` and a generator that always
draws `0`, on a machine with `2^64` bytes. -/
theorem get_img_vec_length_built_witness :
    (∃ xs, loop_points POINT_INTERVAL ((grid_2d.grid_2d
        (⟨fun n => n, fun s => (s, s + 1), fun s => (0, s + 1), Real.sqrt, fun _ => 0⟩ :
          stdlib ℝ Nat) 9 none 0).grid_side - 1) 10 POINT_INTERVAL = some xs ∧
      xs.length = 9) ∧
    (∃ img, (grid_2d.grid_2d
        (⟨fun n => n, fun s => (s, s + 1), fun s => (0, s + 1), Real.sqrt, fun _ => 0⟩ :
          stdlib ℝ Nat) 9 none 0).get_img_vec 9 10 = some img ∧ img.length = 9 * 9) ∧
    ∃ ys, loop_points_double (((9 : Nat) : ℚ) / 16) 10 POINT_INTERVAL = some ys ∧
      ys.length = 9 :=
  have h := get_img_vec_length_built
    (⟨fun n => n, fun s => (s, s + 1), fun s => (0, s + 1), Real.sqrt, fun _ => 0⟩ :
      stdlib ℝ Nat) (2 ^ 64) 9 10 none 0 _ (by norm_num) (le_refl _)
    (construct_of_le _ (2 ^ 64) 9 none 0 (by norm_num) (by norm_num)) (by norm_num)
  ⟨⟨h.1.choose, h.1.choose_spec.1, h.1.choose_spec.2.1⟩,
    h.2.2.2.1 (fun _ => by norm_num) (fun x hx => Real.mul_self_sqrt hx), h.2.2.2.2.2.2.1⟩

/-- C2: on a lattice with `ceil (grid_side)` rows of `ceil (grid_side)` unit vectors, for all
coordinates `0 ≤ r, c < grid_side - 1`, `get_coord_val (r, c)` returns a value in `[-1, 1]`
(in every ordered field with a floor, so over the reals). -/
theorem get_coord_val_in_unit_interval {α : Type} [LinearOrderedField α] [FloorRing α]
    (g : grid_2d α)
    (hrows : g.grid.length = ⌈g.grid_side⌉.toNat)
    (hcols : ∀ row, row ∈ g.grid → row.length = ⌈g.grid_side⌉.toNat)
    (hunit : ∀ row, row ∈ g.grid → ∀ v, v ∈ row → v.v1 ^ 2 + v.v2 ^ 2 = 1) (r c : α)
    (hr0 : 0 ≤ r) (hr1 : r < g.grid_side - 1) (hc0 : 0 ≤ c) (hc1 : c < g.grid_side - 1) :
    ∃ d, g.get_coord_val r c = some d ∧ -1 ≤ d ∧ d ≤ 1 :=
  get_coord_val_bounded g hrows hcols hunit r c hr0 hr1 hc0 hc1

/-- C2, an instance: the lattice `example_grid` at the coordinate `(1/2, 1/4)`. -/
theorem get_coord_val_in_unit_interval_witness :
    ∃ d, example_grid.get_coord_val (1 / 2) (1 / 4) = some d ∧ -1 ≤ d ∧ d ≤ 1 :=
  get_coord_val_in_unit_interval example_grid
    (by simp [example_grid])
    (by simp [example_grid])
    (by
      intro row hrow v hv
      simp only [example_grid, List.mem_cons, List.mem_singleton, List.not_mem_nil,
        or_false] at hrow
      rcases hrow with rfl | rfl <;>
        simp only [List.mem_cons, List.mem_singleton, List.not_mem_nil, or_false] at hv <;>
        rcases hv with rfl | rfl <;> norm_num)
    (1 / 2) (1 / 4) (by norm_num) (by norm_num [example_grid]) (by norm_num)
    (by norm_num [example_grid])

/-- C3: for every noise value `d` in `[-1, 1]`, `to_greyscale (d) = (d + 1) * BEFORE_128` with
`BEFORE_128 = 128 - 2^-46` lies in `[0, 256)`, its floor lies in `[0, 255]`, and that floor is
the pixel intensity stored by the conversion to `channel`. -/
theorem to_greyscale_floor_in_range {α : Type} [LinearOrderedField α] [FloorRing α]
    (d : α) (h0 : -1 ≤ d) (h1 : d ≤ 1) :
    to_greyscale d = (d + 1) * (128 - 1 / 2 ^ 46) ∧
    0 ≤ to_greyscale d ∧ to_greyscale d < 256 ∧
    0 ≤ ⌊to_greyscale d⌋ ∧ ⌊to_greyscale d⌋ ≤ 255 ∧
    to_channel (to_greyscale d) = some ⌊to_greyscale d⌋.toNat := by
  obtain ⟨x0, x1⟩ := to_greyscale_range d h0 h1
  obtain ⟨hch, f0, f1⟩ := to_channel_of_range (to_greyscale d) x0 x1
  exact ⟨rfl, x0, x1, f0, f1, hch⟩

/-- C3, an instance: the noise value `1` over `ℚ`. -/
theorem to_greyscale_floor_in_range_witness :
    to_greyscale (1 : ℚ) = (1 + 1) * (128 - 1 / 2 ^ 46) ∧
    0 ≤ to_greyscale (1 : ℚ) ∧ to_greyscale (1 : ℚ) < 256 ∧
    0 ≤ ⌊to_greyscale (1 : ℚ)⌋ ∧ ⌊to_greyscale (1 : ℚ)⌋ ≤ 255 ∧
    to_channel (to_greyscale (1 : ℚ)) = some ⌊to_greyscale (1 : ℚ)⌋.toNat :=
  to_greyscale_floor_in_range (1 : ℚ) (by norm_num) (by norm_num)

/-- C4: every vector the constructor stores in the lattice has unit length: each stored pair
is `(v1, sign * sqrt (1 - v1^2))` with `sign` one of `1`, `-1` and `v1` in `[-1, 1]`, and it
satisfies `v1^2 + v2^2 = 1`, given that the draws of the distribution lie in `[-1, 1]` and that
`sqrt` is exact on non-negative numbers (as over the reals). -/
theorem constructor_vectors_unit {α : Type} [LinearOrderedField α] [FloorRing α]
    {σ : Type} (lib : stdlib α σ)
    (hdist : ∀ s, -1 ≤ (lib.dist s).1 ∧ (lib.dist s).1 ≤ 1)
    (hsqrt : ∀ x, 0 ≤ x → lib.sqrt x * lib.sqrt x = x)
    (W : Nat) (seed : Option String) (rd : Nat) :
    ∀ row, row ∈ (grid_2d.grid_2d lib W seed rd).grid → ∀ v, v ∈ row →
      (∃ sign : α, (sign = 1 ∨ sign = -1) ∧ v.v2 = sign * lib.sqrt (1 - v.v1 * v.v1)) ∧
      -1 ≤ v.v1 ∧ v.v1 ≤ 1 ∧ v.v1 ^ 2 + v.v2 ^ 2 = 1 := by
  intro row hrow v hv
  obtain ⟨st, rfl⟩ := fill_grid_mem lib _ _ row hrow v hv
  obtain ⟨sign, hsign, hv2, d0, d1⟩ := fill_cell_form lib hdist st
  exact ⟨⟨sign, hsign, hv2⟩, d0, d1, fill_cell_unit lib hdist hsqrt st⟩

/-- C4, an instance: width `1` over the reals, with `Real.sqrt` and a generator that always
draws `0`; the lattice has a cell, and its vector has unit length. -/
theorem constructor_vectors_unit_witness :
    ∃ (row : List (vec_2d ℝ)) (v : vec_2d ℝ),
      (row ∈ (grid_2d.grid_2d (⟨fun n => n, fun s => (s, s + 1), fun s => (0, s + 1),
        Real.sqrt, fun _ => 0⟩ : stdlib ℝ Nat) 1 none 0).grid ∧ v ∈ row) ∧
      (∃ sign : ℝ, (sign = 1 ∨ sign = -1) ∧ v.v2 = sign * Real.sqrt (1 - v.v1 * v.v1)) ∧
      -1 ≤ v.v1 ∧ v.v1 ≤ 1 ∧ v.v1 ^ 2 + v.v2 ^ 2 = 1 := by
  obtain ⟨row, v, hrow, hv⟩ := ctor_has_cell
    (⟨fun n => n, fun s => (s, s + 1), fun s => (0, s + 1), Real.sqrt, fun _ => 0⟩ :
      stdlib ℝ Nat) 1 none 0 (le_refl 1)
  exact ⟨row, v, ⟨hrow, hv⟩, constructor_vectors_unit
    (⟨fun n => n, fun s => (s, s + 1), fun s => (0, s + 1), Real.sqrt, fun _ => 0⟩ :
      stdlib ℝ Nat)
    (fun _ => by norm_num) (fun x hx => Real.mul_self_sqrt hx) 1 none 0 row hrow v hv⟩

/-- C5 (amended): over exact arithmetic (any ordered field, so over the reals),
`interp (a, b, 0) = a` and `interp (a, b, 1) = b` for all `a` and `b`.  In the `double`
arithmetic of the program the blend weight is exactly `0` at `t = 0` and exactly `1` at
`t = 1`, so `interp (x, y, 0)` is `x + 0 * (y - x)` and `interp (x, y, 1)` is
`x + 1 * (y - x)` with rounded operations: `interp (x, y, 0) = x` for all `double`s `x`, `y`
whose difference `y - x` is finite, while `interp (x, y, 1)` is the rounded sum of `x` and the
rounded difference `y - x`, which need not be `y`. -/
theorem interp_endpoints_exact_and_double {α : Type} [LinearOrderedField α] (a b : α)
    (x y d : ℚ) (hx : round_double x = some x)
    (hd : double_sub (some y) (some x) = some d) :
    (interp a b 0 = a ∧ interp a b 1 = b) ∧
    (∀ s e : Option ℚ,
      interp_double s e (some 0) = double_add s (double_mul (some 0) (double_sub e s)) ∧
      interp_double s e (some 1) = double_add s (double_mul (some 1) (double_sub e s))) ∧
    interp_double (some x) (some y) (some 0) = some x ∧
    interp_double (some x) (some y) (some 1) = double_add (some x) (round_double (1 * d)) := by
  refine ⟨⟨by unfold interp; ring, by unfold interp; ring⟩, ?_, ?_, ?_⟩
  · intro s e
    unfold interp_double
    rw [weight_double_endpoints.1, weight_double_endpoints.2]
    exact ⟨rfl, rfl⟩
  · unfold interp_double
    rw [weight_double_endpoints.1, hd]
    simp only [double_mul, double_add, Option.some_bind, zero_mul, round_double_zero, add_zero,
      hx]
  · unfold interp_double
    rw [weight_double_endpoints.2, hd]
    rfl

/-- C5, an instance: `a = 2`, `b = 5` over the rationals, and the `double`s `x = 1`, `y = 3`
with the difference `d = 2`. -/
theorem interp_endpoints_exact_and_double_witness :
    (round_double 1 = some 1 ∧ double_sub (some 3) (some 1) = some 2) ∧
    (interp (2 : ℚ) 5 0 = 2 ∧ interp (2 : ℚ) 5 1 = 5) ∧
    interp_double (some 1) (some 3) (some 0) = some 1 ∧
    interp_double (some 1) (some 3) (some 1) = double_add (some 1) (round_double (1 * 2)) :=
  have h := interp_endpoints_exact_and_double (2 : ℚ) 5 1 3 2 (by decide!) (by decide!)
  ⟨by decide!, h.1, h.2.2.1, h.2.2.2⟩

/-- C5 as stated fails in the `double` arithmetic of the program.  For the `double`s `a = 1`
and `b = 2^-60`, `interp (a, b, 1)` is `0`, not `b`: the difference `b - a` rounds to `-1`.
For the `double`s `a = 2^1023` and `b = -2^1023`, `interp (a, b, 0)` is not `a`: the difference
`b - a` overflows and the result is not finite (a NaN). -/
theorem interp_double_misses_endpoints :
    round_double 1 = some 1 ∧ round_double (1 / 2 ^ 60) = some (1 / 2 ^ 60) ∧
    double_sub (some (1 / 2 ^ 60)) (some 1) = some (-1) ∧
    interp_double (some 1) (some (1 / 2 ^ 60)) (some 1) = some 0 ∧
    (0 : ℚ) ≠ 1 / 2 ^ 60 ∧
    round_double (2 ^ 1023) = some (2 ^ 1023) ∧
    round_double (-(2 ^ 1023)) = some (-(2 ^ 1023)) ∧
    double_sub (some (-(2 ^ 1023))) (some (2 ^ 1023)) = none ∧
    interp_double (some (2 ^ 1023)) (some (-(2 ^ 1023))) (some 0) = none := by
  decide!

/-- C6: for every width `W ≥ 1` the sampling loop of one axis exits (within `2 W + 1` tests
of its condition) with a non-empty list `pts` of coordinates; `get_img_vec` calls
`get_coord_val` on exactly the pairs `(r, c)` of coordinates of `pts`; and for each such pair
the indices of the four lattice lookups are in range, `0 ≤ floor r, floor c` and
`floor r + 1, floor c + 1 ≤ ceil (grid_side) - 1`, so that the four lookups and
`get_coord_val` never reach the out-of-range branch. -/
theorem sample_lookups_in_range {α : Type} [LinearOrderedField α] [FloorRing α]
    {σ : Type} (lib : stdlib α σ) (W fuel : Nat)
    (seed : Option String) (rd : Nat) (hW : 1 ≤ W) (hfuel : 2 * W < fuel) :
    ∃ pts : List α,
      loop_points POINT_INTERVAL ((grid_2d.grid_2d lib W seed rd).grid_side - 1) fuel
        POINT_INTERVAL = some pts ∧
      pts ≠ [] ∧
      (grid_2d.grid_2d lib W seed rd).get_img_vec W fuel
        = pts.foldlM (fun img r => pts.foldlM
            (fun acc c => (grid_2d.grid_2d lib W seed rd).emplace_pixel r c acc) img) [] ∧
      ∀ r, r ∈ pts → ∀ c, c ∈ pts →
        (0 ≤ ⌊r⌋ ∧ 0 ≤ ⌊c⌋ ∧
          ⌊r⌋ + 1 ≤ ⌈(grid_2d.grid_2d lib W seed rd).grid_side⌉ - 1 ∧
          ⌊c⌋ + 1 ≤ ⌈(grid_2d.grid_2d lib W seed rd).grid_side⌉ - 1) ∧
        ((grid_2d.grid_2d lib W seed rd).index ⌊r⌋ ⌊c⌋).isSome ∧
        ((grid_2d.grid_2d lib W seed rd).index ⌊r⌋ (⌊c⌋ + 1)).isSome ∧
        ((grid_2d.grid_2d lib W seed rd).index (⌊r⌋ + 1) ⌊c⌋).isSome ∧
        ((grid_2d.grid_2d lib W seed rd).index (⌊r⌋ + 1) (⌊c⌋ + 1)).isSome ∧
        ((grid_2d.grid_2d lib W seed rd).get_coord_val r c).isSome := by
  have hside : (grid_2d.grid_2d lib W seed rd).grid_side = (W : α) / GRID_SCALE + 1 := rfl
  obtain ⟨pts, hpts⟩ := loop_points_some (POINT_INTERVAL : α)
    ((grid_2d.grid_2d lib W seed rd).grid_side - 1) (2 * W) fuel POINT_INTERVAL
    (by rw [hside]; exact sample_not_below_twice W) hfuel
  refine ⟨pts, hpts, ?_, ?_, ?_⟩
  · rintro rfl
    have := loop_points_exit _ _ fuel _ _ hpts
    apply this
    rw [hside]
    simpa using sample_below (α := α) W 0 hW
  · unfold get_img_vec
    rw [for_loop_eq_foldlM, hpts, Option.some_bind]
    congr 1
    funext img r
    unfold get_img_row
    rw [for_loop_eq_foldlM, hpts, Option.some_bind]
  · intro r hr c hc
    have hr' := loop_points_mem _ _ POINT_INTERVAL_pos.le fuel _ pts hpts r hr
    have hc' := loop_points_mem _ _ POINT_INTERVAL_pos.le fuel _ pts hpts c hc
    have hr0 : 0 ≤ r := le_trans POINT_INTERVAL_pos.le hr'.1
    have hc0 : 0 ≤ c := le_trans POINT_INTERVAL_pos.le hc'.1
    obtain ⟨r0, r1⟩ := floor_in_range _ r hr0 hr'.2
    obtain ⟨c0, c1⟩ := floor_in_range _ c hc0 hc'.2
    obtain ⟨tl, tr, bl, br, h1, h2, h3, h4, -, -, -, -, hval⟩ :=
      get_coord_val_eq _ (ctor_rows lib W seed rd) (ctor_cols lib W seed rd) r c
        hr0 hr'.2 hc0 hc'.2
    refine ⟨⟨r0, c0, r1, c1⟩, ?_, ?_, ?_, ?_, ?_⟩
    · rw [h1]; rfl
    · rw [h2]; rfl
    · rw [h3]; rfl
    · rw [h4]; rfl
    · rw [hval]; rfl

/-- C6, an instance: width `1` with the library `example_lib` over `ℚ`. -/
theorem sample_lookups_in_range_witness :
    ∃ pts : List ℚ,
      loop_points POINT_INTERVAL ((grid_2d.grid_2d example_lib 1 none 0).grid_side - 1) 3
        POINT_INTERVAL = some pts ∧
      pts ≠ [] ∧
      (grid_2d.grid_2d example_lib 1 none 0).get_img_vec 1 3
        = pts.foldlM (fun img r => pts.foldlM
            (fun acc c => (grid_2d.grid_2d example_lib 1 none 0).emplace_pixel r c acc) img) [] ∧
      ∀ r, r ∈ pts → ∀ c, c ∈ pts →
        (0 ≤ ⌊r⌋ ∧ 0 ≤ ⌊c⌋ ∧
          ⌊r⌋ + 1 ≤ ⌈(grid_2d.grid_2d example_lib 1 none 0).grid_side⌉ - 1 ∧
          ⌊c⌋ + 1 ≤ ⌈(grid_2d.grid_2d example_lib 1 none 0).grid_side⌉ - 1) ∧
        ((grid_2d.grid_2d example_lib 1 none 0).index ⌊r⌋ ⌊c⌋).isSome ∧
        ((grid_2d.grid_2d example_lib 1 none 0).index ⌊r⌋ (⌊c⌋ + 1)).isSome ∧
        ((grid_2d.grid_2d example_lib 1 none 0).index (⌊r⌋ + 1) ⌊c⌋).isSome ∧
        ((grid_2d.grid_2d example_lib 1 none 0).index (⌊r⌋ + 1) (⌊c⌋ + 1)).isSome ∧
        ((grid_2d.grid_2d example_lib 1 none 0).get_coord_val r c).isSome :=
  sample_lookups_in_range example_lib 1 3 none 0 (by norm_num) (by norm_num)

/-- C7: for every width `W ≥ 1` the lattice built by the constructor has `ceil (W / 16 + 1)`
rows, each row has `ceil (W / 16 + 1)` vectors, and this number is at least `2`. -/
theorem constructor_lattice_size {α : Type} [LinearOrderedField α] [FloorRing α]
    {σ : Type} (lib : stdlib α σ) (W : Nat)
    (seed : Option String) (rd : Nat) (hW : 1 ≤ W) :
    (grid_2d.grid_2d lib W seed rd).grid.length = ⌈(W : α) / 16 + 1⌉.toNat ∧
    (∀ row, row ∈ (grid_2d.grid_2d lib W seed rd).grid →
      row.length = ⌈(W : α) / 16 + 1⌉.toNat) ∧
    2 ≤ ⌈(W : α) / 16 + 1⌉.toNat := by
  have h2 := ceil_side_ge_two (α := α) W hW
  refine ⟨ctor_rows lib W seed rd, ctor_cols lib W seed rd, ?_⟩
  unfold GRID_SCALE at h2
  omega

/-- C7, an instance: width `1` with the library `example_lib` over `ℚ`. -/
theorem constructor_lattice_size_witness :
    (grid_2d.grid_2d example_lib 1 none 0).grid.length = ⌈((1 : Nat) : ℚ) / 16 + 1⌉.toNat ∧
    (∀ row, row ∈ (grid_2d.grid_2d example_lib 1 none 0).grid →
      row.length = ⌈((1 : Nat) : ℚ) / 16 + 1⌉.toNat) ∧
    2 ≤ ⌈((1 : Nat) : ℚ) / 16 + 1⌉.toNat :=
  constructor_lattice_size example_lib 1 none 0 (le_refl 1)

/-- C8: determinism.  With the generator a function of its seed, a run with a supplied seed
depends on nothing but the width and the seed value
`static_cast<unsigned int> (atoi (custom_seed))`: two runs with the same width whose seed texts
give the same seed value produce the same lattice and the same pixel buffer, whatever the
entropy source would have returned (`rd1`, `rd2`).  Both results are determined explicitly.
The lattice is the one of the constructed object; it has `n = ceil (W / 16 + 1)` rows and its
cell `(a, b)` is the vector that the pass number `a * n + b` of the constructor's loops stores,
starting from the generator seeded with the seed value.  When the lattice can be allocated
(within `2^64` bytes), the draws of the distribution lie in `[-1, 1]`, `sqrt` is exact and
`fuel > W`, the run returns a buffer of `W * W` elements whose element at index `i * W + j` is
the floor of the remapped noise of that lattice at the sample `(i, j)`.  Without a seed the
entropy source is consulted: the run is the run with the seed value that the source
returned. -/
theorem run_deterministic {α : Type} [LinearOrderedField α] [FloorRing α]
    {σ : Type} (lib : stdlib α σ) (W fuel : Nat) (text1 text2 : String) (rd1 rd2 : Nat)
    (hseed : lib.atoi text1 % 2 ^ 32 = lib.atoi text2 % 2 ^ 32) :
    run lib W (some text1) rd1 fuel = run lib W (some text2) rd2 fuel ∧
    (run lib W (some text1) rd1 fuel).1 = (grid_2d.grid_2d lib W (some text1) rd1).grid ∧
    (run lib W (some text1) rd1 fuel).1.length = ⌈(W : α) / GRID_SCALE + 1⌉.toNat ∧
    (∀ a b : Nat, a < ⌈(W : α) / GRID_SCALE + 1⌉.toNat → b < ⌈(W : α) / GRID_SCALE + 1⌉.toNat →
      (grid_2d.grid_2d lib W (some text1) rd1).index a b = some (fill_cell lib (cell_state lib
        (lib.mt19937 (lib.atoi text1 % 2 ^ 32).toNat)
        (a * ⌈(W : α) / GRID_SCALE + 1⌉.toNat + b))).1) ∧
    (∀ (memory : Nat) (g : grid_2d α), memory ≤ 2 ^ 64 →
      construct lib memory W (some text1) rd1 = some g → W < fuel →
      (∀ s, -1 ≤ (lib.dist s).1 ∧ (lib.dist s).1 ≤ 1) →
      (∀ x, 0 ≤ x → lib.sqrt x * lib.sqrt x = x) →
      ∃ img, (run lib W (some text1) rd1 fuel).2 = some img ∧ img.length = W * W ∧
        ∀ i j, i < W → j < W →
          ∃ d, g.get_coord_val (((i : α) + 1) * POINT_INTERVAL)
              (((j : α) + 1) * POINT_INTERVAL) = some d ∧
            img[i * W + j]? = some ⌊to_greyscale d⌋.toNat) ∧
    ((lib.atoi text1 % 2 ^ 32).toNat = rd1 →
      run lib W none rd1 fuel = run lib W (some text1) rd2 fuel) := by
  refine ⟨?_, rfl, ?_, ?_, ?_, ?_⟩
  · simp only [run, grid_2d.grid_2d, seed_value, hseed]
  · exact ctor_rows lib W (some text1) rd1
  · intro a b ha hb
    exact ctor_index_eq lib W (some text1) rd1 _ a b rfl ha hb
  · intro memory g hmem hbuilt hfuel hdist hsqrt
    obtain ⟨rfl, hW52⟩ := construct_some lib memory W (some text1) rd1 g hmem hbuilt
    have hfold := get_img_vec_fold (grid_2d.grid_2d lib W (some text1) rd1) W fuel rfl
      (by omega) hfuel
    obtain ⟨img, himg⟩ := rows_buffer_some (grid_2d.grid_2d lib W (some text1) rd1).pixel
      (fun k : Nat => ((k : α) + 1) * POINT_INTERVAL) W (by
        intro i j hi hj
        obtain ⟨d, -, hp, -⟩ := ctor_pixel lib hdist hsqrt W (some text1) rd1 i j hi hj
        rw [hp]; rfl)
    obtain ⟨hlen, hidx⟩ := rows_buffer _ _ W img himg
    rw [← hfold] at himg
    refine ⟨img, himg, hlen, ?_⟩
    intro i j hi hj
    obtain ⟨d, hd, hp, -⟩ := ctor_pixel lib hdist hsqrt W (some text1) rd1 i j hi hj
    exact ⟨d, hd, by rw [(hidx i j hi hj).2, hp]⟩
  · intro hrd
    simp only [run, grid_2d.grid_2d, seed_value, hrd]

/-- C8, an instance: width `9` over the reals, with `Real.sqrt`, a generator that always draws
`0` and an `atoi` that reads every text as `42`; seed text `"42"`, entropy values `0` and `1`,
`2^64` bytes of memory.  The two runs agree, their lattice has two rows and their buffer has
`81` elements. -/
theorem run_deterministic_witness :
    run (⟨fun n => n, fun s => (s, s + 1), fun s => (0, s + 1), Real.sqrt, fun _ => 42⟩ :
        stdlib ℝ Nat) 9 (some "42") 0 10
      = run (⟨fun n => n, fun s => (s, s + 1), fun s => (0, s + 1), Real.sqrt, fun _ => 42⟩ :
        stdlib ℝ Nat) 9 (some "42") 1 10 ∧
    (run (⟨fun n => n, fun s => (s, s + 1), fun s => (0, s + 1), Real.sqrt, fun _ => 42⟩ :
        stdlib ℝ Nat) 9 (some "42") 0 10).1.length = 2 ∧
    ∃ img, (run (⟨fun n => n, fun s => (s, s + 1), fun s => (0, s + 1), Real.sqrt,
        fun _ => 42⟩ : stdlib ℝ Nat) 9 (some "42") 0 10).2 = some img ∧ img.length = 9 * 9 :=
  have h := run_deterministic
    (⟨fun n => n, fun s => (s, s + 1), fun s => (0, s + 1), Real.sqrt, fun _ => 42⟩ :
      stdlib ℝ Nat) 9 10 "42" "42" 0 1 rfl
  have hb := h.2.2.2.2.1 (2 ^ 64) _ (le_refl _)
    (construct_of_le _ (2 ^ 64) 9 (some "42") 0 (by norm_num) (by norm_num)) (by norm_num)
    (fun _ => by norm_num) (fun x hx => Real.mul_self_sqrt hx)
  have hc : ⌈((9 : Nat) : ℝ) / GRID_SCALE + 1⌉ = 2 := by
    rw [Int.ceil_eq_iff]; unfold GRID_SCALE; norm_num
  ⟨h.1, by rw [h.2.2.1, hc]; rfl, hb.choose, hb.choose_spec.1, hb.choose_spec.2.1⟩

/-- C9 (amended): `to_greyscale` does not clamp.  The value stored for `to_greyscale (d)` is
defined and lies in `[0, 255]` exactly when `-1 < to_greyscale (d) < 256`; this holds for every
`d` in `[-1, 1]`, and for no `d` with `(d + 1) * BEFORE_128 ≥ 256`. -/
theorem stored_pixel_in_range_iff {α : Type} [LinearOrderedField α] [FloorRing α]
    (d : α) :
    (∃ px, to_channel (to_greyscale d) = some px ∧ px ≤ 255)
      ↔ (-1 < to_greyscale d ∧ to_greyscale d < 256) := by
  rw [← to_channel_isSome_iff, Option.isSome_iff_exists]
  constructor
  · rintro ⟨px, h, -⟩; exact ⟨px, h⟩
  · rintro ⟨px, h⟩
    refine ⟨px, h, ?_⟩
    unfold to_channel at h
    split_ifs at h with hr
    simp only [Option.some.injEq] at h
    rw [← h]
    exact Int.toNat_le.2 (by exact_mod_cast hr.2)

/-- C9 as stated fails for the noise input `1 + 2^-40`, slightly above `1`: the remapped value
has floor `256`, and its conversion to `channel` is undefined. -/
theorem to_greyscale_above_one :
    ⌊to_greyscale (1 + 1 / 2 ^ 40 : ℚ)⌋ = 256 ∧
    to_channel (to_greyscale (1 + 1 / 2 ^ 40 : ℚ)) = none := by
  constructor
  · rw [Int.floor_eq_iff]; unfold to_greyscale BEFORE_128; norm_num
  · rw [← Option.not_isSome_iff_eq_none, to_channel_isSome_iff]
    unfold to_greyscale BEFORE_128
    norm_num

/-- C10 (amended): if the sampling step were exactly `1 / GRID_SCALE = 1/16` (same loop: start
at the step, add the step, continue while the coordinate is below `grid_side - 1 = W / 16`),
the loop would run its body `W - 1` times, one time fewer than `W`, for every width `W ≥ 1`. -/
theorem exact_step_sample_count {α : Type} [LinearOrderedField α]
    (W fuel : Nat) (hW : 1 ≤ W) (hfuel : W ≤ fuel) :
    ∃ xs, loop_points (1 / GRID_SCALE : α) ((W : α) / GRID_SCALE + 1 - 1) fuel (1 / GRID_SCALE)
        = some xs ∧ xs.length = W - 1 :=
  ⟨_, exact_step_points_eq W fuel hW hfuel, by simp⟩

/-- C10, an instance: width `16` (a lattice of 2 by 2 cells) over `ℚ`. -/
theorem exact_step_sample_count_witness :
    ∃ xs, loop_points (1 / GRID_SCALE : ℚ) (((16 : Nat) : ℚ) / GRID_SCALE + 1 - 1) 16
        (1 / GRID_SCALE) = some xs ∧ xs.length = 16 - 1 :=
  exact_step_sample_count 16 16 (by norm_num) (le_refl 16)

/-- C10 as stated fails at `W = 1`: with the step `1/16` the loop condition `1/16 < 1/16` fails
at once, so the body runs `0` times, not `W + 1 = 2` times. -/
theorem exact_step_at_width_one :
    loop_points (1 / GRID_SCALE : ℚ) (((1 : Nat) : ℚ) / GRID_SCALE + 1 - 1) 3 (1 / GRID_SCALE)
      = some [] ∧
    ¬ ∃ (fuel : Nat) (xs : List ℚ),
        loop_points (1 / GRID_SCALE : ℚ) (((1 : Nat) : ℚ) / GRID_SCALE + 1 - 1) fuel
          (1 / GRID_SCALE) = some xs ∧ xs.length = 1 + 1 := by
  constructor
  · simp [loop_points]
  · rintro ⟨fuel, xs, h, hlen⟩
    obtain ⟨y, hy⟩ := List.exists_mem_of_length_pos (show 0 < xs.length by omega)
    have hmem := loop_points_mem (1 / GRID_SCALE : ℚ) _ (by unfold GRID_SCALE; norm_num)
      fuel _ xs h y hy
    unfold GRID_SCALE at hmem
    norm_num at hmem
    linarith [hmem.1, hmem.2]

/-- C11: for fixed `start` and `end`, `t ↦ interp (start, end, t)` is
`start + t^3 (3t (2t - 5) + 10) (end - start)`, a polynomial of degree at most 5 in `t`, and its
first and second derivatives with respect to `t` are both `0` at `t = 0` and at `t = 1` (over
the reals). -/
theorem interp_derivatives_vanish (s e : ℝ) :
    (∀ t, interp s e t = s + t ^ 3 * (3 * t * (2 * t - 5) + 10) * (e - s)) ∧
    (∃ p : Polynomial ℝ, p.natDegree ≤ 5 ∧ ∀ t, interp s e t = p.eval t) ∧
    deriv (fun t => interp s e t) 0 = 0 ∧ deriv (fun t => interp s e t) 1 = 0 ∧
    deriv (deriv (fun t => interp s e t)) 0 = 0 ∧
    deriv (deriv (fun t => interp s e t)) 1 = 0 := by
  have hp : ∀ t, interp s e t
      = (Polynomial.C s + (6 * Polynomial.X ^ 5 - 15 * Polynomial.X ^ 4 + 10 * Polynomial.X ^ 3)
          * Polynomial.C (e - s)).eval t := by
    intro t
    simp only [interp, Polynomial.eval_add, Polynomial.eval_mul, Polynomial.eval_sub,
      Polynomial.eval_C, Polynomial.eval_pow, Polynomial.eval_X, Polynomial.eval_ofNat]
    ring
  have hf : (fun t => interp s e t) = fun t =>
      (Polynomial.C s + (6 * Polynomial.X ^ 5 - 15 * Polynomial.X ^ 4 + 10 * Polynomial.X ^ 3)
          * Polynomial.C (e - s)).eval t := funext hp
  have hd1 : deriv (fun t => interp s e t) = fun t =>
      (Polynomial.derivative (Polynomial.C s
        + (6 * Polynomial.X ^ 5 - 15 * Polynomial.X ^ 4 + 10 * Polynomial.X ^ 3)
          * Polynomial.C (e - s))).eval t := by
    rw [hf]; funext t; exact Polynomial.deriv _
  have hd2 : deriv (deriv (fun t => interp s e t)) = fun t =>
      (Polynomial.derivative (Polynomial.derivative (Polynomial.C s
        + (6 * Polynomial.X ^ 5 - 15 * Polynomial.X ^ 4 + 10 * Polynomial.X ^ 3)
          * Polynomial.C (e - s)))).eval t := by
    rw [hd1]; funext t; exact Polynomial.deriv _
  refine ⟨fun t => by unfold interp; ring, ⟨_, ?_, hp⟩, ?_, ?_, ?_, ?_⟩
  · compute_degree
  · rw [hd1]; simp
  · rw [hd1]; simp; left; norm_num
  · rw [hd2]; simp
  · rw [hd2]; simp; left; norm_num

/-- C12 (amended): in `get_coord_val`, for the corner at lattice position `(i, j)` in
`{floor r, floor r + 1} × {floor c, floor c + 1}`, the distance vector dotted with that
corner's gradient is `(i - r, c - j)`: its column component is the displacement from the corner
to the sample point, its row component the displacement from the sample point to the corner. -/
theorem get_coord_val_distance_vectors {α : Type} [LinearOrderedField α] [FloorRing α]
    (g : grid_2d α) (r c : α) :
    (top_left_dist (r - ⌊r⌋) (c - ⌊c⌋) = ⟨(⌊r⌋ : α) - r, c - (⌊c⌋ : α)⟩ ∧
      top_right_dist (r - ⌊r⌋) (c - ⌊c⌋) = ⟨(⌊r⌋ : α) - r, c - ((⌊c⌋ + 1 : Int) : α)⟩ ∧
      bottom_left_dist (r - ⌊r⌋) (c - ⌊c⌋) = ⟨((⌊r⌋ + 1 : Int) : α) - r, c - (⌊c⌋ : α)⟩ ∧
      bottom_right_dist (r - ⌊r⌋) (c - ⌊c⌋)
        = ⟨((⌊r⌋ + 1 : Int) : α) - r, c - ((⌊c⌋ + 1 : Int) : α)⟩) ∧
    g.get_coord_val r c
      = match g.index ⌊r⌋ ⌊c⌋, g.index ⌊r⌋ (⌊c⌋ + 1),
              g.index (⌊r⌋ + 1) ⌊c⌋, g.index (⌊r⌋ + 1) (⌊c⌋ + 1) with
        | some tl, some tr, some bl, some br =>
            some (interp
              (interp ((⟨(⌊r⌋ : α) - r, c - (⌊c⌋ : α)⟩ : vec_2d α).dot tl)
                ((⟨(⌊r⌋ : α) - r, c - ((⌊c⌋ + 1 : Int) : α)⟩ : vec_2d α).dot tr) (c - ⌊c⌋))
              (interp ((⟨((⌊r⌋ + 1 : Int) : α) - r, c - (⌊c⌋ : α)⟩ : vec_2d α).dot bl)
                ((⟨((⌊r⌋ + 1 : Int) : α) - r, c - ((⌊c⌋ + 1 : Int) : α)⟩ : vec_2d α).dot br)
                (c - ⌊c⌋))
              (r - ⌊r⌋))
        | _, _, _, _ => none := by
  obtain ⟨e1, e2, e3, e4⟩ := dist_macros_eq ⌊r⌋ ⌊c⌋ r c
  refine ⟨⟨e1, e2, e3, e4⟩, ?_⟩
  rw [← e1, ← e2, ← e3, ← e4]
  rfl

/-- C12 as stated fails at the sample point `(1/2, 1/4)` of `example_grid`: the vector dotted with
the gradient of the top-left corner `(0, 0)` is `(-1/2, 1/4)`, not the vector `(1/2, 1/4)` from
the corner to the sample point, and the noise value `-265/4096` of `get_coord_val` differs from
the value `3407/20480` obtained with the corner-to-sample vectors. -/
theorem row_component_points_to_corner :
    top_left_dist ((1 / 2 : ℚ) - ⌊(1 / 2 : ℚ)⌋) ((1 / 4 : ℚ) - ⌊(1 / 4 : ℚ)⌋)
      = ⟨-(1 / 2), 1 / 4⟩ ∧
    corner_to_sample ⌊(1 / 2 : ℚ)⌋ ⌊(1 / 4 : ℚ)⌋ (1 / 2 : ℚ) (1 / 4) = ⟨1 / 2, 1 / 4⟩ ∧
    example_grid.get_coord_val (1 / 2) (1 / 4) = some (-265 / 4096) ∧
    noise_corner_to_sample example_grid (1 / 2) (1 / 4) = some (3407 / 20480) := by
  have hr : ⌊(1 / 2 : ℚ)⌋ = 0 := by rw [Int.floor_eq_iff]; norm_num
  have hc : ⌊(1 / 4 : ℚ)⌋ = 0 := by rw [Int.floor_eq_iff]; norm_num
  refine ⟨?_, ?_, ?_, ?_⟩
  · rw [hr, hc]; simp [top_left_dist]
  · rw [hr, hc]; simp [corner_to_sample]
  · simp only [get_coord_val, hr, hc]
    simp [index, example_grid, interp, vec_2d.dot]
    norm_num
  · simp only [noise_corner_to_sample, hr, hc]
    simp [index, example_grid, interp, vec_2d.dot, corner_to_sample]
    norm_num

/-- C13: sign-bit consumption.  `direct_words` lists the words of the direct calls `mt ()` of
the constructor, the first one drawn before the loops.  For the lattice of side `n` and the
cell `(a, b)`, of row-major index `i = a * n + b`: once the cell is filled, `i / 32 + 1` words
have been drawn; with `w` the word number `i / 32`, the stored `v2` is `sqrt (1 - v1^2)` times
`1` if bit `i % 32` of `w` (counted from the least significant bit) is `1`, and times `-1`
otherwise; and the pass of cell `i` draws a word (which is then `w`) exactly when `0 < i` and
`i % 32 = 0`. -/
theorem sign_bits_consumed {α : Type} [LinearOrderedField α] [FloorRing α] {σ : Type}
    (lib : stdlib α σ) (W : Nat) (seed : Option String) (rd : Nat) (n a b : Nat)
    (hn : n = ⌈(grid_2d.grid_2d lib W seed rd).grid_side⌉.toNat) (ha : a < n) (hb : b < n) :
    direct_words lib (lib.mt19937 (seed_value lib seed rd).1) 0
      = [(lib.mt (lib.mt19937 (seed_value lib seed rd).1)).1] ∧
    ∃ (v : vec_2d α) (w : Nat),
      (grid_2d.grid_2d lib W seed rd).index a b = some v ∧
      (direct_words lib (lib.mt19937 (seed_value lib seed rd).1) (a * n + b + 1))[(a * n + b) / 32]?
        = some w ∧
      (direct_words lib (lib.mt19937 (seed_value lib seed rd).1) (a * n + b + 1)).length
        = (a * n + b) / 32 + 1 ∧
      v.v2 = (if w / 2 ^ ((a * n + b) % 32) % 2 = 1 then 1 else -1)
        * lib.sqrt (1 - v.v1 * v.v1) ∧
      direct_words lib (lib.mt19937 (seed_value lib seed rd).1) (a * n + b + 1)
        = (if 0 < a * n + b ∧ (a * n + b) % 32 = 0 then
            direct_words lib (lib.mt19937 (seed_value lib seed rd).1) (a * n + b) ++ [w]
          else direct_words lib (lib.mt19937 (seed_value lib seed rd).1) (a * n + b)) := by
  obtain ⟨w, h1, h2, h3, h4⟩ :=
    cell_sign_bit lib (lib.mt19937 (seed_value lib seed rd).1) (a * n + b)
  exact ⟨rfl, _, w, ctor_index_eq lib W seed rd n a b hn ha hb, h1, h2, h3, h4⟩

/-- C13, an instance: width `80` (a lattice of side `6`) with `example_lib`, at the cell `(5, 2)`
of row-major index `32`, the first cell whose pass draws a fresh word. -/
theorem sign_bits_consumed_witness :
    direct_words example_lib (example_lib.mt19937 (seed_value example_lib none 0).1) 0
      = [(example_lib.mt (example_lib.mt19937 (seed_value example_lib none 0).1)).1] ∧
    ∃ (v : vec_2d ℚ) (w : Nat),
      (grid_2d.grid_2d example_lib 80 none 0).index (5 : Nat) (2 : Nat) = some v ∧
      (direct_words example_lib (example_lib.mt19937 (seed_value example_lib none 0).1)
        (5 * 6 + 2 + 1))[(5 * 6 + 2) / 32]? = some w ∧
      (direct_words example_lib (example_lib.mt19937 (seed_value example_lib none 0).1)
        (5 * 6 + 2 + 1)).length = (5 * 6 + 2) / 32 + 1 ∧
      v.v2 = (if w / 2 ^ ((5 * 6 + 2) % 32) % 2 = 1 then 1 else -1)
        * example_lib.sqrt (1 - v.v1 * v.v1) ∧
      direct_words example_lib (example_lib.mt19937 (seed_value example_lib none 0).1)
          (5 * 6 + 2 + 1)
        = (if 0 < 5 * 6 + 2 ∧ (5 * 6 + 2) % 32 = 0 then
            direct_words example_lib (example_lib.mt19937 (seed_value example_lib none 0).1)
              (5 * 6 + 2) ++ [w]
          else direct_words example_lib
            (example_lib.mt19937 (seed_value example_lib none 0).1) (5 * 6 + 2)) :=
  sign_bits_consumed example_lib 80 none 0 6 5 2
    (by
      have h : ⌈((80 : Nat) : ℚ) / GRID_SCALE + 1⌉ = 6 := by
        rw [Int.ceil_eq_iff]; unfold GRID_SCALE; norm_num
      show 6 = ⌈((80 : Nat) : ℚ) / GRID_SCALE + 1⌉.toNat
      rw [h]; rfl)
    (by norm_num) (by norm_num)

/-- C15: with the multiplier exactly `128` the remap sends the noise value `1` to `256`, which
does not fit an unsigned 8-bit channel (its conversion is undefined); with the multiplier
`BEFORE_128 = 128 - 2^-46` of `to_greyscale`, the noise value `1` maps to a value of floor `255`
(stored as `255`) and the noise value `-1` maps to `0` (stored as `0`). -/
theorem multiplier_128_overflows {α : Type} [LinearOrderedField α] [FloorRing α] :
    ((1 : α) + 1) * 128 = 256 ∧ to_channel (((1 : α) + 1) * 128) = none ∧
    (∀ d : α, to_greyscale d = (d + 1) * (128 - 1 / 2 ^ 46)) ∧
    ⌊to_greyscale (1 : α)⌋ = 255 ∧ to_channel (to_greyscale (1 : α)) = some 255 ∧
    to_greyscale (-1 : α) = 0 ∧ to_channel (to_greyscale (-1 : α)) = some 0 := by
  have h255 : ⌊to_greyscale (1 : α)⌋ = 255 := by
    rw [Int.floor_eq_iff]; unfold to_greyscale BEFORE_128; norm_num
  have hm : to_greyscale (-1 : α) = 0 := by unfold to_greyscale; simp
  refine ⟨by norm_num, ?_, fun d => rfl, h255, ?_, hm, ?_⟩
  · rw [← Option.not_isSome_iff_eq_none, to_channel_isSome_iff]; norm_num
  · have h0 : (0 : α) ≤ to_greyscale 1 := by unfold to_greyscale BEFORE_128; norm_num
    have h1 : to_greyscale (1 : α) < 256 := by unfold to_greyscale BEFORE_128; norm_num
    rw [(to_channel_of_range _ h0 h1).1, h255]; rfl
  · rw [hm, (to_channel_of_range (0 : α) (le_refl 0) (by norm_num)).1]; simp

/-- C16 (amended): over exact arithmetic (any ordered field, so over the reals), for every
`start`, `end` and every `t` in `[0, 1]`, the blend weight `t^3 (3t (2t - 5) + 10)` lies in
`[0, 1]` and `interp (start, end, t)` lies between `start` and `end`:
`min (start, end) ≤ interp (start, end, t) ≤ max (start, end)`.  (In the `double` arithmetic of
the program a rounding error can take the weight above `1` and the result out of the
interval.) -/
theorem interp_no_overshoot {α : Type} [LinearOrderedField α] (s e t : α)
    (h0 : 0 ≤ t) (h1 : t ≤ 1) :
    (0 ≤ t ^ 3 * (3 * t * (2 * t - 5) + 10) ∧ t ^ 3 * (3 * t * (2 * t - 5) + 10) ≤ 1) ∧
    interp s e t = s + t ^ 3 * (3 * t * (2 * t - 5) + 10) * (e - s) ∧
    min s e ≤ interp s e t ∧ interp s e t ≤ max s e := by
  have w0 := weight_nonneg t h0
  have w1 := weight_le_one t h0 h1
  have hw : t ^ 3 * (3 * t * (2 * t - 5) + 10) = t * t * t * (3 * t * (2 * t - 5) + 10) := by
    ring
  have e1 := mix_le_mix _ (min s e) (min s e) s e w0 w1 (min_le_left _ _) (min_le_right _ _)
  have e2 := mix_le_mix _ s e (max s e) (max s e) w0 w1 (le_max_left _ _) (le_max_right _ _)
  rw [hw, interp_eq_mix]
  refine ⟨⟨w0, w1⟩, by ring, by linarith, by linarith⟩

/-- C16, an instance: `start = 1`, `end = 3`, `t = 1/2` over `ℚ`. -/
theorem interp_no_overshoot_witness :
    (0 ≤ (1 / 2 : ℚ) ^ 3 * (3 * (1 / 2) * (2 * (1 / 2) - 5) + 10) ∧
      (1 / 2 : ℚ) ^ 3 * (3 * (1 / 2) * (2 * (1 / 2) - 5) + 10) ≤ 1) ∧
    interp (1 : ℚ) 3 (1 / 2)
      = 1 + (1 / 2 : ℚ) ^ 3 * (3 * (1 / 2) * (2 * (1 / 2) - 5) + 10) * (3 - 1) ∧
    min (1 : ℚ) 3 ≤ interp (1 : ℚ) 3 (1 / 2) ∧ interp (1 : ℚ) 3 (1 / 2) ≤ max (1 : ℚ) 3 :=
  interp_no_overshoot (1 : ℚ) 3 (1 / 2) (by norm_num) (by norm_num)

/-- C16 as stated fails in the `double` arithmetic of the program.  For the `double`s
`start = 0.5`, `end = 0.1` and `t = 1`, `interp` returns `0.09999999999999998`, which is below
both `start` and `end`; and at the `double` `t = 1 - 2^-26` of `[0, 1]` the blend weight is
`1 + 2^-51 > 1`, so that `interp (0, 1, t) > 1`. -/
theorem interp_double_overshoots :
    round_double (1 / 2) = some (1 / 2) ∧ round_double (1 / 10) = some double_tenth ∧
    interp_double (some (1 / 2)) (some double_tenth) (some 1)
      = some (900719925474099 / 9007199254740992) ∧
    (900719925474099 / 9007199254740992 : ℚ) < min (1 / 2) double_tenth ∧
    round_double (1 - 1 / 2 ^ 26) = some (1 - 1 / 2 ^ 26) ∧
    weight_double (some (1 - 1 / 2 ^ 26)) = some (1 + 1 / 2 ^ 51) ∧
    interp_double (some 0) (some 1) (some (1 - 1 / 2 ^ 26)) = some (1 + 1 / 2 ^ 51) ∧
    max (0 : ℚ) 1 < 1 + 1 / 2 ^ 51 := by
  decide!

/-- C17 (amended): over exact arithmetic (any ordered field with a floor, so over the reals)
the noise field is continuous across cell boundaries.  `get_coord_val (r, c)` is the
formula `cell_formula` of the cell `(floor r, floor c)` at the fractions `r - floor r`,
`c - floor c`; on a lattice with `n` rows of `n` vectors and for a cell `(i, j)` in range, the
formula of cell `(i, j)` at column fraction `1` equals the formula of cell `(i, j + 1)` at column
fraction `0` (same row fraction), and the formula of cell `(i, j)` at row fraction `1` equals the
formula of cell `(i + 1, j)` at row fraction `0` (same column fraction), whenever the
neighbouring cell is in range too.  (In the `double` arithmetic of the program the two values
can differ by a rounding error.) -/
theorem noise_continuous_across_cells {α : Type} [LinearOrderedField α] [FloorRing α]
    (g : grid_2d α) (n : Nat) (hrows : g.grid.length = n)
    (hcols : ∀ row, row ∈ g.grid → row.length = n) (i j : Int) (a b : α)
    (hi0 : 0 ≤ i) (hi1 : i + 1 < n) (hj0 : 0 ≤ j) (hj1 : j + 1 < n) :
    (∀ r c : α, g.get_coord_val r c = cell_formula g ⌊r⌋ ⌊c⌋ (r - ⌊r⌋) (c - ⌊c⌋)) ∧
    ((j + 1) + 1 < n →
      ∃ v, cell_formula g i j a 1 = some v ∧ cell_formula g i (j + 1) a 0 = some v) ∧
    ((i + 1) + 1 < n →
      ∃ v, cell_formula g i j 1 b = some v ∧ cell_formula g (i + 1) j 0 b = some v) := by
  obtain ⟨tl, tr, bl, br, h1, h2, h3, h4⟩ := cell_lookups g n hrows hcols i j hi0 hi1 hj0 hj1
  refine ⟨fun r c => rfl, ?_, ?_⟩
  · intro hj2
    obtain ⟨tl', tr', bl', br', k1, k2, k3, k4⟩ :=
      cell_lookups g n hrows hcols i (j + 1) hi0 hi1 (by omega) hj2
    rw [h2] at k1; rw [h4] at k3
    cases k1; cases k3
    refine ⟨_, cell_formula_of_lookups g i j a 1 tl tr bl br h1 h2 h3 h4, ?_⟩
    rw [cell_formula_of_lookups g i (j + 1) a 0 _ _ _ _ h2 k2 h4 k4]
    congr 1
    simp only [interp, top_left_dist, top_right_dist, bottom_left_dist, bottom_right_dist,
      vec_2d.dot]
    ring
  · intro hi2
    obtain ⟨tl', tr', bl', br', k1, k2, k3, k4⟩ :=
      cell_lookups g n hrows hcols (i + 1) j (by omega) hi2 hj0 hj1
    rw [h3] at k1; rw [h4] at k2
    cases k1; cases k2
    refine ⟨_, cell_formula_of_lookups g i j 1 b tl tr bl br h1 h2 h3 h4, ?_⟩
    rw [cell_formula_of_lookups g (i + 1) j 0 b _ _ _ _ h3 h4 k3 k4]
    congr 1
    simp only [interp, top_left_dist, top_right_dist, bottom_left_dist, bottom_right_dist,
      vec_2d.dot]
    ring

/-- C17, an instance: the cell `(0, 0)` of the 3 by 3 lattice `example_grid3`, with the row
fraction `1/3` and the column fraction `1/4`. -/
theorem noise_continuous_across_cells_witness :
    (∀ r c : ℚ, example_grid3.get_coord_val r c
      = cell_formula example_grid3 ⌊r⌋ ⌊c⌋ (r - ⌊r⌋) (c - ⌊c⌋)) ∧
    (∃ v, cell_formula example_grid3 0 0 (1 / 3) 1 = some v ∧
      cell_formula example_grid3 0 (0 + 1) (1 / 3) 0 = some v) ∧
    (∃ v, cell_formula example_grid3 0 0 1 (1 / 4) = some v ∧
      cell_formula example_grid3 (0 + 1) 0 0 (1 / 4) = some v) :=
  ⟨(noise_continuous_across_cells example_grid3 3 rfl (by simp [example_grid3]) 0 0 (1 / 3)
      (1 / 4) (le_refl 0) (by norm_num) (le_refl 0) (by norm_num)).1,
   (noise_continuous_across_cells example_grid3 3 rfl (by simp [example_grid3]) 0 0 (1 / 3)
      (1 / 4) (le_refl 0) (by norm_num) (le_refl 0) (by norm_num)).2.1 (by norm_num),
   (noise_continuous_across_cells example_grid3 3 rfl (by simp [example_grid3]) 0 0 (1 / 3)
      (1 / 4) (le_refl 0) (by norm_num) (le_refl 0) (by norm_num)).2.2 (by norm_num)⟩

/-- C17 as stated fails in the `double` arithmetic of the program.  On the lattice
`example_grid_axes` of unit vectors, at the column fraction `0.1`, the formula of the cell
`(0, 0)` with row fraction `1` and the formula of the cell `(1, 0)` with row fraction `0`
return two different `double`s, one unit in the last place apart. -/
theorem noise_double_differs_across_cells :
    round_double (1 / 10) = some double_tenth ∧
    cell_formula_double example_grid_axes 0 0 (some 1) (some double_tenth)
      = some (-893009762912040 / 9007199254740992) ∧
    cell_formula_double example_grid_axes 1 0 (some 0) (some double_tenth)
      = some (-893009762912041 / 9007199254740992) ∧
    (-893009762912040 / 9007199254740992 : ℚ) ≠ -893009762912041 / 9007199254740992 := by
  decide!

/-- C18: at every lattice point the noise vanishes whatever the gradients are: on a lattice with
`n` rows of `n` vectors, for all integer coordinates `(i, j)` with `0 ≤ i, j` and `i + 1`,
`j + 1` inside the lattice, `get_coord_val (i, j) = 0`; the floor of `to_greyscale (0)` is `127`,
and `127` is the pixel stored for `(i, j)`. -/
theorem noise_vanishes_at_lattice_points {α : Type} [LinearOrderedField α] [FloorRing α]
    (g : grid_2d α) (n : Nat) (hrows : g.grid.length = n)
    (hcols : ∀ row, row ∈ g.grid → row.length = n) (i j : Int)
    (hi0 : 0 ≤ i) (hi1 : i + 1 < n) (hj0 : 0 ≤ j) (hj1 : j + 1 < n) :
    g.get_coord_val (i : α) (j : α) = some 0 ∧ ⌊to_greyscale (0 : α)⌋ = 127 ∧
    g.pixel (i : α) (j : α) = some 127 := by
  obtain ⟨tl, tr, bl, br, h1, h2, h3, h4⟩ := cell_lookups g n hrows hcols i j hi0 hi1 hj0 hj1
  have hval : g.get_coord_val (i : α) (j : α) = some 0 := by
    rw [get_coord_val_eq_cell_formula, Int.floor_intCast, Int.floor_intCast,
      cell_formula_of_lookups g i j _ _ tl tr bl br h1 h2 h3 h4]
    simp [interp, top_left_dist, vec_2d.dot]
  refine ⟨hval, to_greyscale_zero_floor.1, ?_⟩
  unfold pixel
  rw [hval, Option.some_bind, to_greyscale_zero_floor.2]

/-- C18, an instance: the lattice point `(0, 0)` of `example_grid`. -/
theorem noise_vanishes_at_lattice_points_witness :
    example_grid.get_coord_val ((0 : Int) : ℚ) ((0 : Int) : ℚ) = some 0 ∧
    ⌊to_greyscale (0 : ℚ)⌋ = 127 ∧
    example_grid.pixel ((0 : Int) : ℚ) ((0 : Int) : ℚ) = some 127 :=
  noise_vanishes_at_lattice_points example_grid 2 rfl (by simp [example_grid]) 0 0
    (le_refl 0) (by norm_num) (le_refl 0) (by norm_num)

end claims
